import Mathlib

/-!
Verification of the Frequency Cache (LFU with LRU tie-break) from
`0x01-caching/100-lfu_cache.py`.

The Python class `LFUCache` keeps three coupled structures:
  * `cache_data`   : an `OrderedDict` mapping keys to values,
  * `frequency`    : a `defaultdict(int)` mapping keys to access counts,
  * `lru`          : a `defaultdict(OrderedDict)` mapping a frequency to the
                     ordered set of keys currently at that frequency, each key
                     stamped with the `lru_counter` value at insertion time,
  * `lru_counter`  : a monotonically increasing sequence counter.

We embed Python dictionaries as association lists (`List (Nat × α)`)
preserving insertion order: assignment to an existing key updates it in
place, assignment to a fresh key appends at the end, exactly the semantics
of `dict` / `OrderedDict`.  Keys and values are specialised to `Nat`; the
Python `None` is `Option.none`.  Operations that can raise in Python
(`dict.pop` on a missing key, `min` of an empty iterable,
`next(iter(...))` of an empty dict) are modelled in the `Option` monad:
`none` means the call raises.
-/

namespace LFU

/-- Lookup in an insertion-ordered dictionary (`d[k]` read / `k in d`). -/
def odLookup {α : Type} : List (Nat × α) → Nat → Option α
  | [], _ => none
  | (k, v) :: rest, key => if k = key then some v else odLookup rest key

/-- Assignment `d[k] = v`: update in place if present, append if fresh. -/
def odSet {α : Type} : List (Nat × α) → Nat → α → List (Nat × α)
  | [], key, val => [(key, val)]
  | (k, v) :: rest, key, val =>
    if k = key then (k, val) :: rest else (k, v) :: odSet rest key val

/-- `d.pop(k)`: remove the entry for `k`; `none` models the `KeyError`
raised when `k` is absent. -/
def odPop {α : Type} : List (Nat × α) → Nat → Option (List (Nat × α))
  | [], _ => none
  | (k, v) :: rest, key =>
    if k = key then some rest else (odPop rest key).map (fun l => (k, v) :: l)

/-- Total variant of removal: drop the entry for `k`, identity if absent. -/
def odErase {α : Type} : List (Nat × α) → Nat → List (Nat × α)
  | [], _ => []
  | (k, v) :: rest, key =>
    if k = key then rest else (k, v) :: odErase rest key

/-- The key list of a dictionary, in insertion order. -/
def odKeys {α : Type} (l : List (Nat × α)) : List Nat := l.map Prod.fst

/-- Python `min` over a list of naturals: raises (`none`) on the empty
list, otherwise folds `min`. -/
def pyMin : List Nat → Option Nat
  | [] => none
  | x :: xs => some (xs.foldl Nat.min x)

/-- The state of the `LFUCache` object: the three dictionaries and the
sequence counter, named as in the source. -/
structure LFUCache where
  cache_data : List (Nat × Nat)
  frequency : List (Nat × Nat)
  lru : List (Nat × List (Nat × Nat))
  lru_counter : Nat
deriving DecidableEq, Repr

/-- `LFUCache.__init__`: all dictionaries empty, counter at zero. -/
def initCache : LFUCache :=
  { cache_data := [], frequency := [], lru := [], lru_counter := 0 }

/-- Modelled from the spec: `BaseCaching.MAX_ITEMS` lives in
`base_caching.py`, which is not part of this snapshot (only its
subclasses are).  The spec fixes the capacity as a positive
process-lifetime constant (100 in the reference behaviour).  All theorems
below are parameterised over an arbitrary capacity `maxItems`, so they
cover this constant as an instance. -/
def MAX_ITEMS : Nat := 100

/-- `LFUCache.get`.  Returns `none` only when the Python code would raise
(possible only on states violating the internal invariants: the
`defaultdict` access `self.lru[freq]` followed by `.pop(key)` raises
`KeyError` when the bucket is missing or does not hold `key`).  The
second component of the result is the returned value, `none` standing for
Python `None` ("not found"). -/
def get (c : LFUCache) (key : Option Nat) : Option (LFUCache × Option Nat) :=
  match key with
  | none => some (c, none)
  | some k =>
    match odLookup c.cache_data k with
    | none => some (c, none)
    | some value =>
      let freq := (odLookup c.frequency k).getD 0
      let frequency1 := odSet c.frequency k (freq + 1)
      match odLookup c.lru freq with
      | none => none
      | some b =>
        match odPop b k with
        | none => none
        | some b1 =>
          let lru1 := odSet c.lru freq b1
          match (if b1.isEmpty then odPop lru1 freq else some lru1) with
          | none => none
          | some lru2 =>
            let lru3 := odSet lru2 (freq + 1)
              (odSet ((odLookup lru2 (freq + 1)).getD []) k c.lru_counter)
            some ({ cache_data := c.cache_data, frequency := frequency1,
                    lru := lru3, lru_counter := c.lru_counter + 1 },
                  some value)

/-- The eviction block of `LFUCache.put` (lines 57–65): find the minimum
frequency, pop the oldest key of that bucket from all three structures,
drop the bucket if it became empty, and emit `DISCARD: {lru_key}`.  The
emitted notification is modelled as the singleton list `[lru_key]`. -/
def evict (c : LFUCache) : Option (LFUCache × List Nat) :=
  match pyMin (c.frequency.map Prod.snd) with
  | none => none
  | some min_freq =>
    match (((odLookup c.lru min_freq).getD []).head?).map Prod.fst with
    | none => none
    | some lru_key =>
      match odPop c.cache_data lru_key with
      | none => none
      | some cd1 =>
        match odPop c.frequency lru_key with
        | none => none
        | some fr1 =>
          match odPop ((odLookup c.lru min_freq).getD []) lru_key with
          | none => none
          | some b1 =>
            let lruA := odSet c.lru min_freq b1
            match (if b1.isEmpty then odPop lruA min_freq else some lruA) with
            | none => none
            | some lruB =>
              some ({ cache_data := cd1, frequency := fr1, lru := lruB,
                      lru_counter := c.lru_counter }, [lru_key])

/-- `LFUCache.put`.  On a null key or item: silent no-op.  On an existing
key: overwrite the value, then `self.get(key)` promotes it.  On a fresh
key: evict first when `len(self.cache_data) >= MAX_ITEMS`, then insert at
frequency 1 with a fresh stamp.  The list of naturals is the stream of
eviction notifications (`DISCARD` lines) printed by the call. -/
def put (maxItems : Nat) (c : LFUCache) (key item : Option Nat) :
    Option (LFUCache × List Nat) :=
  match key, item with
  | none, _ => some (c, [])
  | some _, none => some (c, [])
  | some k, some v =>
    match odLookup c.cache_data k with
    | some _ =>
      match get { c with cache_data := odSet c.cache_data k v } (some k) with
      | none => none
      | some (c2, _) => some (c2, [])
    | none =>
      match (if maxItems ≤ c.cache_data.length then evict c
             else some (c, [])) with
      | none => none
      | some (c2, out) =>
        some ({ cache_data := odSet c2.cache_data k v,
                frequency := odSet c2.frequency k 1,
                lru := odSet c2.lru 1
                  (odSet ((odLookup c2.lru 1).getD []) k c2.lru_counter),
                lru_counter := c2.lru_counter + 1 }, out)

/-- A single call to the public interface. -/
inductive Op where
  | opPut (key item : Option Nat)
  | opGet (key : Option Nat)
deriving DecidableEq, Repr

/-- Run one call, returning the new state and the eviction notifications
it printed (`get` never prints). -/
def runOp (maxItems : Nat) (c : LFUCache) : Op → Option (LFUCache × List Nat)
  | Op.opPut key item => put maxItems c key item
  | Op.opGet key => (get c key).map (fun p => (p.1, []))

/-- Run a sequence of calls from a given state; `none` as soon as one
call raises. -/
def runOps (maxItems : Nat) (c : LFUCache) : List Op → Option LFUCache
  | [] => some c
  | op :: ops =>
    match runOp maxItems c op with
    | none => none
    | some (c1, _) => runOps maxItems c1 ops

/-- A state is reachable when some sequence of calls produces it from a
freshly constructed cache. -/
def Reachable (maxItems : Nat) (c : LFUCache) : Prop :=
  ∃ ops : List Op, runOps maxItems initCache ops = some c

/-- A concrete reachable state with capacity 2, the result of
`put(0,10); put(1,20); get(0)`, used to instantiate the theorems below on
explicit inputs. -/
def sampleState : LFUCache :=
  { cache_data := [(0, 10), (1, 20)], frequency := [(0, 2), (1, 1)],
    lru := [(1, [(1, 1)]), (2, [(0, 2)])], lru_counter := 3 }

/-- `sampleState` after `put(2, 30)`: key 1 was evicted. -/
def sampleState2 : LFUCache :=
  { cache_data := [(0, 10), (2, 30)], frequency := [(0, 2), (2, 1)],
    lru := [(2, [(0, 2)]), (1, [(2, 3)])], lru_counter := 4 }

/-- The call sequence leading to `sampleState`. -/
def sampleOps : List Op :=
  [Op.opPut (some 0) (some 10), Op.opPut (some 1) (some 20),
   Op.opGet (some 0)]

/-! ### The internal invariant -/

/-- A frequency bucket `fb = (f, entries)` is healthy: non-empty, without
duplicate keys, every member's recorded frequency is `f`, every stamp is
strictly below the counter, and stamps strictly increase along insertion
order (so the first entry is the oldest). -/
def bucketOK (c : LFUCache) (fb : Nat × List (Nat × Nat)) : Prop :=
  fb.2 ≠ [] ∧ (odKeys fb.2).Nodup ∧
  (∀ ks ∈ fb.2, odLookup c.frequency ks.1 = some fb.1 ∧ ks.2 < c.lru_counter) ∧
  List.Pairwise (fun x y : Nat × Nat => x.2 < y.2) fb.2

/-- The coupled invariant of the three structures: no dictionary has a
duplicate key, `cache_data` and `frequency` have the same key set, every
key sits (with frequency ≥ 1) in the bucket matching its frequency, every
bucket is healthy, and the store respects the capacity. -/
def WF (maxItems : Nat) (c : LFUCache) : Prop :=
  (odKeys c.cache_data).Nodup ∧
  (odKeys c.frequency).Nodup ∧
  (odKeys c.lru).Nodup ∧
  (∀ kv ∈ c.cache_data, (odLookup c.frequency kv.1).isSome) ∧
  (∀ kf ∈ c.frequency, (odLookup c.cache_data kf.1).isSome ∧ 1 ≤ kf.2 ∧
    (odLookup ((odLookup c.lru kf.2).getD []) kf.1).isSome) ∧
  (∀ fb ∈ c.lru, bucketOK c fb) ∧
  c.cache_data.length ≤ maxItems

/-- The frequency index after promoting key `k` from frequency `f`:
remove `k` from bucket `f` (dropping the bucket when it empties), then
append `k` to bucket `f + 1` stamped with the current counter. -/
def promoteLru (c : LFUCache) (k f : Nat) : List (Nat × List (Nat × Nat)) :=
  let b1 := odErase ((odLookup c.lru f).getD []) k
  let lru2 := if b1.isEmpty then odErase c.lru f else odSet c.lru f b1
  odSet lru2 (f + 1) (odSet ((odLookup lru2 (f + 1)).getD []) k c.lru_counter)

/-- The state produced by the promotion step of `get` on a key `k`
currently at frequency `f`. -/
def promote (c : LFUCache) (k f : Nat) : LFUCache :=
  { cache_data := c.cache_data,
    frequency := odSet c.frequency k (f + 1),
    lru := promoteLru c k f,
    lru_counter := c.lru_counter + 1 }

/-- The state built by the tail of `put` for a fresh key `k`: store the
value, set frequency 1, and append `k` to the frequency-1 bucket stamped
with the current counter. -/
def insertNew (c : LFUCache) (k v : Nat) : LFUCache :=
  { cache_data := odSet c.cache_data k v,
    frequency := odSet c.frequency k 1,
    lru := odSet c.lru 1 (odSet ((odLookup c.lru 1).getD []) k c.lru_counter),
    lru_counter := c.lru_counter + 1 }

/-! ### Association-list lemmas -/

theorem odLookup_odSet_self {α : Type} (l : List (Nat × α)) (k : Nat) (v : α) :
    odLookup (odSet l k v) k = some v := by
  induction l with
  | nil => simp [odSet, odLookup]
  | cons hd tl ih =>
    obtain ⟨a, b⟩ := hd
    by_cases h : a = k
    · simp [odSet, odLookup, h]
    · simp [odSet, odLookup, h, ih]

theorem odLookup_odSet_ne {α : Type} (l : List (Nat × α)) (k k' : Nat) (v : α)
    (h : k' ≠ k) : odLookup (odSet l k v) k' = odLookup l k' := by
  induction l with
  | nil =>
    simp only [odSet, odLookup]
    rw [if_neg (fun hh => h hh.symm)]
  | cons hd tl ih =>
    obtain ⟨a, b⟩ := hd
    by_cases hk : a = k
    · simp [odSet, odLookup, hk, Ne.symm h]
    · by_cases hk' : a = k'
      · simp [odSet, odLookup, hk, hk', h]
      · simp [odSet, odLookup, hk, hk', ih]

theorem mem_odKeys_iff_isSome {α : Type} (l : List (Nat × α)) (k : Nat) :
    k ∈ odKeys l ↔ (odLookup l k).isSome := by
  induction l with
  | nil => simp [odKeys, odLookup]
  | cons hd tl ih =>
    obtain ⟨a, b⟩ := hd
    by_cases h : a = k
    · simp [odKeys, odLookup, h]
    · simp only [odKeys, List.map_cons, List.mem_cons] at ih ⊢
      simp [odLookup, h, Ne.symm h, ih]

theorem odSet_eq_append {α : Type} (l : List (Nat × α)) (k : Nat) (v : α)
    (h : odLookup l k = none) : odSet l k v = l ++ [(k, v)] := by
  induction l with
  | nil => simp [odSet]
  | cons hd tl ih =>
    obtain ⟨a, b⟩ := hd
    by_cases hk : a = k
    · simp [odLookup, hk] at h
    · simp [odLookup, hk] at h
      simp [odSet, hk, ih h]

theorem odKeys_odSet_of_isSome {α : Type} (l : List (Nat × α)) (k : Nat) (v : α)
    (h : (odLookup l k).isSome) : odKeys (odSet l k v) = odKeys l := by
  induction l with
  | nil => simp [odLookup] at h
  | cons hd tl ih =>
    obtain ⟨a, b⟩ := hd
    by_cases hk : a = k
    · simp [odSet, odKeys, hk]
    · simp [odLookup, hk] at h
      simp only [odSet, odKeys, List.map_cons] at ih ⊢
      rw [if_neg hk]
      simp [ih h]

theorem odLookup_mem {α : Type} (l : List (Nat × α)) (k : Nat) (v : α)
    (h : odLookup l k = some v) : (k, v) ∈ l := by
  induction l with
  | nil => simp [odLookup] at h
  | cons hd tl ih =>
    obtain ⟨a, b⟩ := hd
    by_cases hk : a = k
    · simp [odLookup, hk] at h
      simp [hk, h]
    · simp [odLookup, hk] at h
      exact List.mem_cons_of_mem _ (ih h)

theorem mem_odLookup {α : Type} (l : List (Nat × α)) (k : Nat) (v : α)
    (hnd : (odKeys l).Nodup) (h : (k, v) ∈ l) : odLookup l k = some v := by
  induction l with
  | nil => simp at h
  | cons hd tl ih =>
    obtain ⟨a, b⟩ := hd
    simp only [odKeys, List.map_cons, List.nodup_cons] at hnd
    rcases List.mem_cons.mp h with h | h
    · rw [Prod.mk.injEq] at h
      simp [odLookup, h.1, h.2]
    · have hk : a ≠ k := by
        intro hh
        exact hnd.1 (hh ▸ List.mem_map_of_mem Prod.fst h)
      simp only [odLookup]
      rw [if_neg hk]
      exact ih hnd.2 h

theorem odPop_eq_none_iff {α : Type} (l : List (Nat × α)) (k : Nat) :
    odPop l k = none ↔ odLookup l k = none := by
  induction l with
  | nil => simp [odPop, odLookup]
  | cons hd tl ih =>
    obtain ⟨a, b⟩ := hd
    by_cases hk : a = k
    · simp [odPop, odLookup, hk]
    · simp [odPop, odLookup, hk, ih]

theorem odPop_eq_some {α : Type} (l : List (Nat × α)) (k : Nat)
    (h : (odLookup l k).isSome) : odPop l k = some (odErase l k) := by
  induction l with
  | nil => simp [odLookup] at h
  | cons hd tl ih =>
    obtain ⟨a, b⟩ := hd
    by_cases hk : a = k
    · simp [odPop, odErase, hk]
    · simp [odLookup, hk] at h
      simp [odPop, odErase, hk, ih h]

theorem odErase_sublist {α : Type} (l : List (Nat × α)) (k : Nat) :
    (odErase l k).Sublist l := by
  induction l with
  | nil => simp [odErase]
  | cons hd tl ih =>
    obtain ⟨a, b⟩ := hd
    by_cases hk : a = k
    · simp only [odErase]
      rw [if_pos hk]
      exact List.sublist_cons_self (a, b) tl
    · simp only [odErase]
      rw [if_neg hk]
      exact List.Sublist.cons₂ (a, b) ih

theorem odLookup_odErase_ne {α : Type} (l : List (Nat × α)) (k k' : Nat)
    (h : k' ≠ k) : odLookup (odErase l k) k' = odLookup l k' := by
  induction l with
  | nil => simp [odErase]
  | cons hd tl ih =>
    obtain ⟨a, b⟩ := hd
    by_cases hk : a = k
    · simp [odErase, odLookup, hk, Ne.symm h]
    · by_cases hk' : a = k'
      · simp [odErase, odLookup, hk, hk', h]
      · simp [odErase, odLookup, hk, hk', ih]

theorem odLookup_odErase_self {α : Type} (l : List (Nat × α)) (k : Nat)
    (hnd : (odKeys l).Nodup) : odLookup (odErase l k) k = none := by
  induction l with
  | nil => simp [odErase, odLookup]
  | cons hd tl ih =>
    obtain ⟨a, b⟩ := hd
    simp only [odKeys, List.map_cons, List.nodup_cons] at hnd
    by_cases hk : a = k
    · simp only [odErase]
      rw [if_pos hk]
      rw [← Option.not_isSome_iff_eq_none, ← mem_odKeys_iff_isSome]
      exact hk ▸ hnd.1
    · simp only [odErase]
      rw [if_neg hk]
      simp only [odLookup]
      rw [if_neg hk]
      exact ih hnd.2

theorem length_odErase {α : Type} (l : List (Nat × α)) (k : Nat)
    (h : (odLookup l k).isSome) : (odErase l k).length + 1 = l.length := by
  induction l with
  | nil => simp [odLookup] at h
  | cons hd tl ih =>
    obtain ⟨a, b⟩ := hd
    by_cases hk : a = k
    · simp [odErase, hk]
    · simp [odLookup, hk] at h
      simp [odErase, hk, ← ih h]

theorem mem_odErase {α : Type} (l : List (Nat × α)) (k : Nat) (x : Nat × α)
    (hnd : (odKeys l).Nodup) : x ∈ odErase l k ↔ x ∈ l ∧ x.1 ≠ k := by
  induction l with
  | nil => simp [odErase]
  | cons hd tl ih =>
    obtain ⟨a, b⟩ := hd
    simp only [odKeys, List.map_cons, List.nodup_cons] at hnd
    by_cases hk : a = k
    · simp only [odErase]
      rw [if_pos hk]
      constructor
      · intro hx
        refine ⟨List.mem_cons_of_mem _ hx, ?_⟩
        intro hxk
        refine hnd.1 ?_
        rw [hk, ← hxk]
        exact List.mem_map_of_mem Prod.fst hx
      · rintro ⟨hx, hxk⟩
        rcases List.mem_cons.mp hx with hx | hx
        · exact absurd (by rw [hx, hk]) hxk
        · exact hx
    · simp only [odErase]
      rw [if_neg hk]
      rw [List.mem_cons, List.mem_cons, ih hnd.2]
      constructor
      · rintro (hx | ⟨hx, hxk⟩)
        · exact ⟨Or.inl hx, by rw [hx]; exact hk⟩
        · exact ⟨Or.inr hx, hxk⟩
      · rintro ⟨hx | hx, hxk⟩
        · exact Or.inl hx
        · exact Or.inr ⟨hx, hxk⟩

theorem mem_odSet_iff {α : Type} (l : List (Nat × α)) (k : Nat) (v : α)
    (x : Nat × α) (hnd : (odKeys l).Nodup) :
    x ∈ odSet l k v ↔ x = (k, v) ∨ (x ∈ l ∧ x.1 ≠ k) := by
  induction l with
  | nil => simp [odSet]
  | cons hd tl ih =>
    obtain ⟨a, b⟩ := hd
    simp only [odKeys, List.map_cons, List.nodup_cons] at hnd
    by_cases hk : a = k
    · simp only [odSet]
      rw [if_pos hk]
      rw [List.mem_cons, List.mem_cons]
      constructor
      · rintro (hx | hx)
        · left
          rw [hx, hk]
        · right
          refine ⟨Or.inr hx, ?_⟩
          intro hxk
          refine hnd.1 ?_
          rw [hk, ← hxk]
          exact List.mem_map_of_mem Prod.fst hx
      · rintro (hx | ⟨hx | hx, hxk⟩)
        · left
          rw [hx, hk]
        · exact absurd (by rw [hx, hk]) hxk
        · exact Or.inr hx
    · simp only [odSet]
      rw [if_neg hk]
      rw [List.mem_cons, List.mem_cons, ih hnd.2]
      constructor
      · rintro (hx | hx | ⟨hx, hxk⟩)
        · exact Or.inr ⟨Or.inl hx, by rw [hx]; exact hk⟩
        · exact Or.inl hx
        · exact Or.inr ⟨Or.inr hx, hxk⟩
      · rintro (hx | ⟨hx | hx, hxk⟩)
        · exact Or.inr (Or.inl hx)
        · exact Or.inl hx
        · exact Or.inr (Or.inr ⟨hx, hxk⟩)

theorem odErase_odSet {α : Type} (l : List (Nat × α)) (k : Nat) (v : α) :
    odErase (odSet l k v) k = odErase l k := by
  induction l with
  | nil => simp [odSet, odErase]
  | cons hd tl ih =>
    obtain ⟨a, b⟩ := hd
    by_cases hk : a = k
    · simp [odSet, odErase, hk]
    · simp [odSet, odErase, hk, ih]

/-! ### Lemmas about the Python `min` fold -/

theorem pyMin_isSome (l : List Nat) (h : l ≠ []) : (pyMin l).isSome := by
  cases l with
  | nil => exact absurd rfl h
  | cons x xs => simp [pyMin]

theorem pyMin_foldl_mem (xs : List Nat) (x : Nat) :
    xs.foldl Nat.min x = x ∨ xs.foldl Nat.min x ∈ xs := by
  induction xs generalizing x with
  | nil => exact Or.inl rfl
  | cons y ys ih =>
    have hstep : List.foldl Nat.min x (y :: ys) =
        List.foldl Nat.min (Nat.min x y) ys := rfl
    rcases ih (Nat.min x y) with h | h
    · rcases Nat.le_total x y with hxy | hxy
      · left
        have hmin : Nat.min x y = x := Nat.min_eq_left hxy
        rw [hstep, h, hmin]
      · right
        have hmin : Nat.min x y = y := Nat.min_eq_right hxy
        rw [hstep, h, hmin]
        exact List.mem_cons_self y ys
    · right
      rw [hstep]
      exact List.mem_cons_of_mem y h

theorem pyMin_foldl_le (xs : List Nat) (x : Nat) :
    xs.foldl Nat.min x ≤ x ∧ ∀ y ∈ xs, xs.foldl Nat.min x ≤ y := by
  induction xs generalizing x with
  | nil => simp
  | cons y ys ih =>
    obtain ⟨h1, h2⟩ := ih (Nat.min x y)
    have hstep : List.foldl Nat.min x (y :: ys) =
        List.foldl Nat.min (Nat.min x y) ys := rfl
    rw [hstep]
    refine ⟨le_trans h1 (Nat.min_le_left x y), ?_⟩
    intro z hz
    rcases List.mem_cons.mp hz with hz | hz
    · rw [hz]
      exact le_trans h1 (Nat.min_le_right x y)
    · exact h2 z hz

theorem pyMin_mem (l : List Nat) (m : Nat) (h : pyMin l = some m) : m ∈ l := by
  cases l with
  | nil => simp [pyMin] at h
  | cons x xs =>
    simp only [pyMin, Option.some.injEq] at h
    rcases pyMin_foldl_mem xs x with hm | hm
    · rw [← h, hm]
      exact List.mem_cons_self x xs
    · rw [← h]
      exact List.mem_cons_of_mem x hm

theorem pyMin_le (l : List Nat) (m : Nat) (h : pyMin l = some m) :
    ∀ y ∈ l, m ≤ y := by
  cases l with
  | nil => simp [pyMin] at h
  | cons x xs =>
    simp only [pyMin, Option.some.injEq] at h
    intro y hy
    obtain ⟨h1, h2⟩ := pyMin_foldl_le xs x
    rcases List.mem_cons.mp hy with hy | hy
    · rw [← h, hy]
      exact h1
    · rw [← h]
      exact h2 y hy

/-- On a well-formed state, `get` of a present key returns its value and
promotes it. -/
theorem get_hit (maxItems : Nat) (c : LFUCache) (k v : Nat)
    (hwf : WF maxItems c) (hv : odLookup c.cache_data k = some v) :
    ∃ f, odLookup c.frequency k = some f ∧
      (odLookup c.lru f).isSome ∧
      (odLookup ((odLookup c.lru f).getD []) k).isSome ∧
      get c (some k) = some (promote c k f, some v) := by
  obtain ⟨_, _, _, hcdfr, hfr, hbok, _⟩ := hwf
  have hkcd := odLookup_mem _ _ _ hv
  have hfs := hcdfr (k, v) hkcd
  obtain ⟨f, hf⟩ := Option.isSome_iff_exists.mp hfs
  have hkfmem := odLookup_mem _ _ _ hf
  obtain ⟨hcd2, h1f, hbk⟩ := hfr (k, f) hkfmem
  cases hlb : odLookup c.lru f with
  | none =>
    rw [hlb] at hbk
    simp [odLookup] at hbk
  | some b =>
    rw [hlb] at hbk
    simp only [Option.getD_some] at hbk
    have hpop := odPop_eq_some b k hbk
    refine ⟨f, hf, by simp [hlb], by simp [hlb, hbk], ?_⟩
    by_cases hemp : (odErase b k).isEmpty
    · have hps : odPop (odSet c.lru f (odErase b k)) f
          = some (odErase c.lru f) := by
        rw [odPop_eq_some]
        · rw [odErase_odSet]
        · rw [odLookup_odSet_self]
          rfl
      simp [get, hv, hf, hlb, hpop, hemp, hps, promote, promoteLru]
    · simp [get, hv, hf, hlb, hpop, hemp, promote, promoteLru]

theorem odKeys_odErase_nodup {α : Type} (l : List (Nat × α)) (k : Nat)
    (h : (odKeys l).Nodup) : (odKeys (odErase l k)).Nodup :=
  List.Nodup.sublist ((odErase_sublist l k).map Prod.fst) h

theorem odKeys_nodup_odSet {α : Type} (l : List (Nat × α)) (k : Nat) (v : α)
    (h : (odKeys l).Nodup) : (odKeys (odSet l k v)).Nodup := by
  cases hl : odLookup l k with
  | some w =>
    rw [odKeys_odSet_of_isSome _ _ _ (by rw [hl]; rfl)]
    exact h
  | none =>
    rw [odSet_eq_append _ _ _ hl]
    simp only [odKeys, List.map_append, List.map_cons, List.map_nil]
    rw [List.nodup_append]
    refine ⟨h, List.nodup_singleton k, ?_⟩
    intro x hx hx2
    simp only [List.mem_singleton] at hx2
    subst hx2
    have hks : (odLookup l x).isSome := (mem_odKeys_iff_isSome l x).mp hx
    rw [hl] at hks
    simp at hks

theorem ne_nil_of_lookup_isSome {α : Type} (l : List (Nat × α)) (k : Nat)
    (h : (odLookup l k).isSome) : l ≠ [] := by
  intro hnil
  rw [hnil] at h
  simp [odLookup] at h

/-- Promotion of a present key preserves the invariant. -/
theorem wf_promote (maxItems : Nat) (c : LFUCache) (k f v : Nat)
    (hwf : WF maxItems c) (hv : odLookup c.cache_data k = some v)
    (hf : odLookup c.frequency k = some f) :
    WF maxItems (promote c k f) := by
  obtain ⟨hnd_cd, hnd_fr, hnd_lru, hcdfr, hfr, hbok, hlen⟩ := hwf
  obtain ⟨hcd2, h1f, hbkt⟩ := hfr (k, f) (odLookup_mem _ _ _ hf)
  have hne_succ : (f : Nat) + 1 ≠ f := Nat.succ_ne_self f
  cases hlb : odLookup c.lru f with
  | none =>
    rw [hlb] at hbkt
    simp [odLookup] at hbkt
  | some b =>
    rw [hlb] at hbkt
    simp only [Option.getD_some] at hbkt
    obtain ⟨hbne, hbnd, hbmem, hbpw⟩ := hbok (f, b) (odLookup_mem _ _ _ hlb)
    obtain ⟨lru2v, hplru, hl2ne, hl2nodup, hmem2, hlookf⟩ :
        ∃ lru2v, promoteLru c k f = odSet lru2v (f + 1)
            (odSet ((odLookup lru2v (f + 1)).getD []) k c.lru_counter) ∧
          (∀ f2, f2 ≠ f → odLookup lru2v f2 = odLookup c.lru f2) ∧
          (odKeys lru2v).Nodup ∧
          (∀ fb ∈ lru2v, (fb.1 = f ∧ fb.2 = odErase b k ∧ odErase b k ≠ []) ∨
            (fb ∈ c.lru ∧ fb.1 ≠ f)) ∧
          (odErase b k ≠ [] → odLookup lru2v f = some (odErase b k)) := by
      by_cases hemp : (odErase b k).isEmpty
      · refine ⟨odErase c.lru f, ?_, ?_, ?_, ?_, ?_⟩
        · simp [promoteLru, hlb, hemp]
        · intro f2 hf2
          exact odLookup_odErase_ne _ _ _ hf2
        · exact odKeys_odErase_nodup _ _ hnd_lru
        · intro fb hfb
          exact Or.inr ((mem_odErase _ _ _ hnd_lru).mp hfb)
        · intro hne
          exact absurd (List.isEmpty_iff.mp hemp) hne
      · refine ⟨odSet c.lru f (odErase b k), ?_, ?_, ?_, ?_, ?_⟩
        · simp [promoteLru, hlb, hemp]
        · intro f2 hf2
          exact odLookup_odSet_ne _ _ _ _ hf2
        · exact odKeys_nodup_odSet _ _ _ hnd_lru
        · intro fb hfb
          rcases (mem_odSet_iff _ _ _ _ hnd_lru).mp hfb with h | h
          · left
            rw [h]
            refine ⟨rfl, rfl, ?_⟩
            intro hnil
            rw [hnil] at hemp
            exact hemp rfl
          · exact Or.inr h
        · intro _
          exact odLookup_odSet_self _ _ _
    have hbold : (odLookup lru2v (f + 1)).getD []
        = (odLookup c.lru (f + 1)).getD [] := by
      rw [hl2ne _ hne_succ]
    have hboldP : (odKeys ((odLookup c.lru (f + 1)).getD [])).Nodup ∧
        (∀ ks ∈ (odLookup c.lru (f + 1)).getD [],
          odLookup c.frequency ks.1 = some (f + 1) ∧ ks.2 < c.lru_counter) ∧
        List.Pairwise (fun x y : Nat × Nat => x.2 < y.2)
          ((odLookup c.lru (f + 1)).getD []) := by
      cases hlb2 : odLookup c.lru (f + 1) with
      | none => simp [odKeys]
      | some b2 =>
        obtain ⟨_, hnd2, hmemb2, hpw2⟩ :=
          hbok (f + 1, b2) (odLookup_mem _ _ _ hlb2)
        exact ⟨hnd2, hmemb2, hpw2⟩
    obtain ⟨hboldnd, hboldmem, hboldpw⟩ := hboldP
    have hboldk : odLookup ((odLookup c.lru (f + 1)).getD []) k = none := by
      cases hlk : odLookup ((odLookup c.lru (f + 1)).getD []) k with
      | none => rfl
      | some s =>
        have hks := (hboldmem (k, s) (odLookup_mem _ _ _ hlk)).1
        rw [hf] at hks
        exact absurd (Option.some.inj hks).symm hne_succ
    have hnewB : odSet ((odLookup lru2v (f + 1)).getD []) k c.lru_counter
        = (odLookup c.lru (f + 1)).getD [] ++ [(k, c.lru_counter)] := by
      rw [hbold]
      exact odSet_eq_append _ _ _ hboldk
    refine ⟨?_, ?_, ?_, ?_, ?_, ?_, ?_⟩
    · exact hnd_cd
    · show (odKeys (odSet c.frequency k (f + 1))).Nodup
      exact odKeys_nodup_odSet _ _ _ hnd_fr
    · show (odKeys (promoteLru c k f)).Nodup
      rw [hplru]
      exact odKeys_nodup_odSet _ _ _ hl2nodup
    · show ∀ kv ∈ c.cache_data,
          (odLookup (odSet c.frequency k (f + 1)) kv.1).isSome
      intro kv hkv
      by_cases hk : kv.1 = k
      · rw [hk, odLookup_odSet_self]
        rfl
      · rw [odLookup_odSet_ne _ _ _ _ hk]
        exact hcdfr kv hkv
    · show ∀ kf ∈ odSet c.frequency k (f + 1),
          (odLookup c.cache_data kf.1).isSome ∧ 1 ≤ kf.2 ∧
          (odLookup ((odLookup (promoteLru c k f) kf.2).getD []) kf.1).isSome
      intro kf hkf
      rcases (mem_odSet_iff _ _ _ _ hnd_fr).mp hkf with hkf | ⟨hkf, hkfk⟩
      · rw [hkf]
        refine ⟨by rw [hv]; rfl, Nat.le_add_left 1 f, ?_⟩
        rw [hplru, odLookup_odSet_self]
        simp only [Option.getD_some]
        rw [odLookup_odSet_self]
        rfl
      · obtain ⟨hc1, h11, hb1⟩ := hfr kf hkf
        refine ⟨hc1, h11, ?_⟩
        rw [hplru]
        by_cases hf2 : kf.2 = f + 1
        · rw [hf2, odLookup_odSet_self]
          simp only [Option.getD_some]
          rw [hbold]
          rw [hf2] at hb1
          cases hlk2 : odLookup ((odLookup c.lru (f + 1)).getD []) kf.1 with
          | none =>
            rw [hlk2] at hb1
            simp at hb1
          | some s =>
            rw [odLookup_odSet_ne _ _ _ _ hkfk, hlk2]
            rfl
        · rw [odLookup_odSet_ne _ _ _ _ hf2]
          by_cases hf3 : kf.2 = f
          · rw [hf3] at hb1 ⊢
            rw [hlb] at hb1
            simp only [Option.getD_some] at hb1
            have hbb1 : (odLookup (odErase b k) kf.1).isSome := by
              rw [odLookup_odErase_ne _ _ _ hkfk]
              exact hb1
            rw [hlookf (ne_nil_of_lookup_isSome _ _ hbb1)]
            simp only [Option.getD_some]
            exact hbb1
          · rw [hl2ne _ hf3]
            exact hb1
    · show ∀ fb ∈ promoteLru c k f, bucketOK (promote c k f) fb
      intro fb hfb
      rw [hplru] at hfb
      rcases (mem_odSet_iff _ _ _ _ hl2nodup).mp hfb with hfb | ⟨hfb, hfb1⟩
      · rw [hfb]
        refine ⟨?_, ?_, ?_, ?_⟩
        · show odSet ((odLookup lru2v (f + 1)).getD []) k c.lru_counter ≠ []
          rw [hnewB]
          simp
        · show (odKeys (odSet ((odLookup lru2v (f + 1)).getD [])
              k c.lru_counter)).Nodup
          rw [hnewB]
          simp only [odKeys, List.map_append, List.map_cons, List.map_nil]
          rw [List.nodup_append]
          refine ⟨hboldnd, List.nodup_singleton k, ?_⟩
          intro x hx hx2
          simp only [List.mem_singleton] at hx2
          subst hx2
          have hxs := (mem_odKeys_iff_isSome _ x).mp hx
          rw [hboldk] at hxs
          simp at hxs
        · intro ks hks
          rw [hnewB] at hks
          rcases List.mem_append.mp hks with hks | hks
          · have hksk : ks.1 ≠ k := by
              intro hh
              have hmm := (hboldmem ks hks).1
              rw [hh, hf] at hmm
              exact absurd (Option.some.inj hmm).symm hne_succ
            constructor
            · show odLookup (odSet c.frequency k (f + 1)) ks.1 = some (f + 1)
              rw [odLookup_odSet_ne _ _ _ _ hksk]
              exact (hboldmem ks hks).1
            · show ks.2 < c.lru_counter + 1
              exact Nat.lt_succ_of_lt (hboldmem ks hks).2
          · simp only [List.mem_singleton] at hks
            rw [hks]
            constructor
            · show odLookup (odSet c.frequency k (f + 1)) k = some (f + 1)
              exact odLookup_odSet_self _ _ _
            · exact Nat.lt_succ_self c.lru_counter
        · show List.Pairwise (fun x y : Nat × Nat => x.2 < y.2)
              (odSet ((odLookup lru2v (f + 1)).getD []) k c.lru_counter)
          rw [hnewB]
          rw [List.pairwise_append]
          refine ⟨hboldpw, List.pairwise_singleton _ _, ?_⟩
          intro x hx y hy
          simp only [List.mem_singleton] at hy
          rw [hy]
          exact (hboldmem x hx).2
      · rcases hmem2 fb hfb with ⟨hfbf, hfbb, hfbne0⟩ | ⟨hfbmem, hfbne⟩
        · refine ⟨?_, ?_, ?_, ?_⟩
          · rw [hfbb]
            exact hfbne0
          · rw [hfbb]
            exact odKeys_odErase_nodup _ _ hbnd
          · intro ks hks
            rw [hfbb] at hks
            obtain ⟨hksb, hksk⟩ := (mem_odErase _ _ _ hbnd).mp hks
            constructor
            · show odLookup (odSet c.frequency k (f + 1)) ks.1 = some fb.1
              rw [odLookup_odSet_ne _ _ _ _ hksk, hfbf]
              exact (hbmem ks hksb).1
            · show ks.2 < c.lru_counter + 1
              exact Nat.lt_succ_of_lt (hbmem ks hksb).2
          · rw [hfbb]
            exact hbpw.sublist (odErase_sublist b k)
        · obtain ⟨hne', hnd', hmem', hpw'⟩ := hbok fb hfbmem
          refine ⟨hne', hnd', ?_, hpw'⟩
          intro ks hks
          have hksk : ks.1 ≠ k := by
            intro hh
            have hmm := (hmem' ks hks).1
            rw [hh, hf] at hmm
            exact hfbne (Option.some.inj hmm).symm
          constructor
          · show odLookup (odSet c.frequency k (f + 1)) ks.1 = some fb.1
            rw [odLookup_odSet_ne _ _ _ _ hksk]
            exact (hmem' ks hks).1
          · show ks.2 < c.lru_counter + 1
            exact Nat.lt_succ_of_lt (hmem' ks hks).2
    · show c.cache_data.length ≤ maxItems
      exact hlen

theorem get_none (c : LFUCache) : get c none = some (c, none) := rfl

theorem get_miss (c : LFUCache) (k : Nat)
    (h : odLookup c.cache_data k = none) : get c (some k) = some (c, none) := by
  simp [get, h]

theorem length_odSet_isSome {α : Type} (l : List (Nat × α)) (k : Nat) (v : α)
    (h : (odLookup l k).isSome) : (odSet l k v).length = l.length := by
  have hk := odKeys_odSet_of_isSome l k v h
  have := congrArg List.length hk
  simpa [odKeys] using this

theorem length_odSet_none {α : Type} (l : List (Nat × α)) (k : Nat) (v : α)
    (h : odLookup l k = none) : (odSet l k v).length = l.length + 1 := by
  rw [odSet_eq_append _ _ _ h]
  simp

/-- Overwriting the value of a present key preserves the invariant. -/
theorem wf_setValue (maxItems : Nat) (c : LFUCache) (k v : Nat)
    (hwf : WF maxItems c) (hk : (odLookup c.cache_data k).isSome) :
    WF maxItems { c with cache_data := odSet c.cache_data k v } := by
  obtain ⟨hnd_cd, hnd_fr, hnd_lru, hcdfr, hfr, hbok, hlen⟩ := hwf
  refine ⟨?_, hnd_fr, hnd_lru, ?_, ?_, ?_, ?_⟩
  · show (odKeys (odSet c.cache_data k v)).Nodup
    rw [odKeys_odSet_of_isSome _ _ _ hk]
    exact hnd_cd
  · show ∀ kv ∈ odSet c.cache_data k v, (odLookup c.frequency kv.1).isSome
    intro kv hkv
    rcases (mem_odSet_iff _ _ _ _ hnd_cd).mp hkv with hkv | ⟨hkv, _⟩
    · rw [hkv]
      obtain ⟨w, hw⟩ := Option.isSome_iff_exists.mp hk
      exact hcdfr (k, w) (odLookup_mem _ _ _ hw)
    · exact hcdfr kv hkv
  · show ∀ kf ∈ c.frequency, (odLookup (odSet c.cache_data k v) kf.1).isSome ∧
        1 ≤ kf.2 ∧ (odLookup ((odLookup c.lru kf.2).getD []) kf.1).isSome
    intro kf hkf
    obtain ⟨hc1, h11, hb1⟩ := hfr kf hkf
    refine ⟨?_, h11, hb1⟩
    by_cases hkk : kf.1 = k
    · rw [hkk, odLookup_odSet_self]
      rfl
    · rw [odLookup_odSet_ne _ _ _ _ hkk]
      exact hc1
  · show ∀ fb ∈ c.lru, bucketOK _ fb
    intro fb hfb
    exact hbok fb hfb
  · show (odSet c.cache_data k v).length ≤ maxItems
    rw [length_odSet_isSome _ _ _ hk]
    exact hlen

/-- Any state produced by a successful `get` is well formed. -/
theorem wf_get (maxItems : Nat) (c : LFUCache) (hwf : WF maxItems c) :
    ∀ key r, get c key = some r → WF maxItems r.1 := by
  intro key r hr
  cases key with
  | none =>
    rw [get_none] at hr
    cases hr
    exact hwf
  | some k =>
    cases hv : odLookup c.cache_data k with
    | none =>
      rw [get_miss _ _ hv] at hr
      cases hr
      exact hwf
    | some v =>
      obtain ⟨f, hf, _, _, hget⟩ := get_hit maxItems c k v hwf hv
      rw [hget] at hr
      cases hr
      exact wf_promote maxItems c k f v hwf hv hf

/-- Inserting a fresh key below capacity preserves the invariant. -/
theorem wf_insertNew (maxItems : Nat) (c : LFUCache) (k v : Nat)
    (hwf : WF maxItems c) (hk : odLookup c.cache_data k = none)
    (hlen : c.cache_data.length < maxItems) :
    WF maxItems (insertNew c k v) := by
  obtain ⟨hnd_cd, hnd_fr, hnd_lru, hcdfr, hfr, hbok, hlen0⟩ := hwf
  have hfrk : odLookup c.frequency k = none := by
    cases hfk : odLookup c.frequency k with
    | none => rfl
    | some f =>
      have hc := (hfr (k, f) (odLookup_mem _ _ _ hfk)).1
      rw [hk] at hc
      simp at hc
  have hnotbucket : ∀ fb ∈ c.lru, ∀ s, (k, s) ∈ fb.2 → False := by
    intro fb hfb s hks
    obtain ⟨h1, _⟩ := (hbok fb hfb).2.2.1 (k, s) hks
    rw [hfrk] at h1
    exact Option.noConfusion h1
  have hboldP : (odKeys ((odLookup c.lru 1).getD [])).Nodup ∧
      (∀ ks ∈ (odLookup c.lru 1).getD [],
        odLookup c.frequency ks.1 = some 1 ∧ ks.2 < c.lru_counter) ∧
      List.Pairwise (fun x y : Nat × Nat => x.2 < y.2)
        ((odLookup c.lru 1).getD []) := by
    cases hlb1 : odLookup c.lru 1 with
    | none => simp [odKeys]
    | some b1 =>
      obtain ⟨_, hnd1, hmem1, hpw1⟩ := hbok (1, b1) (odLookup_mem _ _ _ hlb1)
      exact ⟨hnd1, hmem1, hpw1⟩
  obtain ⟨hboldnd, hboldmem, hboldpw⟩ := hboldP
  have hboldk : odLookup ((odLookup c.lru 1).getD []) k = none := by
    cases hlk : odLookup ((odLookup c.lru 1).getD []) k with
    | none => rfl
    | some s =>
      have h1 := (hboldmem (k, s) (odLookup_mem _ _ _ hlk)).1
      rw [hfrk] at h1
      exact Option.noConfusion h1
  have hnewB : odSet ((odLookup c.lru 1).getD []) k c.lru_counter
      = (odLookup c.lru 1).getD [] ++ [(k, c.lru_counter)] :=
    odSet_eq_append _ _ _ hboldk
  refine ⟨?_, ?_, ?_, ?_, ?_, ?_, ?_⟩
  · show (odKeys (odSet c.cache_data k v)).Nodup
    exact odKeys_nodup_odSet _ _ _ hnd_cd
  · show (odKeys (odSet c.frequency k 1)).Nodup
    exact odKeys_nodup_odSet _ _ _ hnd_fr
  · show (odKeys (odSet c.lru 1
        (odSet ((odLookup c.lru 1).getD []) k c.lru_counter))).Nodup
    exact odKeys_nodup_odSet _ _ _ hnd_lru
  · show ∀ kv ∈ odSet c.cache_data k v,
        (odLookup (odSet c.frequency k 1) kv.1).isSome
    intro kv hkv
    rcases (mem_odSet_iff _ _ _ _ hnd_cd).mp hkv with hkv | ⟨hkv, hkvk⟩
    · rw [hkv]
      rw [odLookup_odSet_self]
      rfl
    · rw [odLookup_odSet_ne _ _ _ _ hkvk]
      exact hcdfr kv hkv
  · show ∀ kf ∈ odSet c.frequency k 1,
        (odLookup (odSet c.cache_data k v) kf.1).isSome ∧ 1 ≤ kf.2 ∧
        (odLookup ((odLookup (odSet c.lru 1
          (odSet ((odLookup c.lru 1).getD []) k c.lru_counter))
            kf.2).getD []) kf.1).isSome
    intro kf hkf
    rcases (mem_odSet_iff _ _ _ _ hnd_fr).mp hkf with hkf | ⟨hkf, hkfk⟩
    · rw [hkf]
      refine ⟨by rw [odLookup_odSet_self]; rfl, Nat.le_refl 1, ?_⟩
      rw [odLookup_odSet_self]
      simp only [Option.getD_some]
      rw [odLookup_odSet_self]
      rfl
    · obtain ⟨hc1, h11, hb1⟩ := hfr kf hkf
      refine ⟨?_, h11, ?_⟩
      · rw [odLookup_odSet_ne _ _ _ _ hkfk]
        exact hc1
      · by_cases hf1 : kf.2 = 1
        · rw [hf1, odLookup_odSet_self]
          simp only [Option.getD_some]
          rw [odLookup_odSet_ne _ _ _ _ hkfk]
          rw [hf1] at hb1
          exact hb1
        · rw [odLookup_odSet_ne _ _ _ _ hf1]
          exact hb1
  · show ∀ fb ∈ odSet c.lru 1
        (odSet ((odLookup c.lru 1).getD []) k c.lru_counter),
        bucketOK (insertNew c k v) fb
    intro fb hfb
    rcases (mem_odSet_iff _ _ _ _ hnd_lru).mp hfb with hfb | ⟨hfb, hfb1⟩
    · rw [hfb]
      refine ⟨?_, ?_, ?_, ?_⟩
      · show odSet ((odLookup c.lru 1).getD []) k c.lru_counter ≠ []
        rw [hnewB]
        simp
      · show (odKeys (odSet ((odLookup c.lru 1).getD [])
            k c.lru_counter)).Nodup
        rw [hnewB]
        simp only [odKeys, List.map_append, List.map_cons, List.map_nil]
        rw [List.nodup_append]
        refine ⟨hboldnd, List.nodup_singleton k, ?_⟩
        intro x hx hx2
        simp only [List.mem_singleton] at hx2
        subst hx2
        have hxs := (mem_odKeys_iff_isSome _ x).mp hx
        rw [hboldk] at hxs
        simp at hxs
      · intro ks hks
        rw [hnewB] at hks
        rcases List.mem_append.mp hks with hks | hks
        · have hksk : ks.1 ≠ k := by
            intro hh
            have h1 := (hboldmem ks hks).1
            rw [hh, hfrk] at h1
            exact Option.noConfusion h1
          constructor
          · show odLookup (odSet c.frequency k 1) ks.1 = some 1
            rw [odLookup_odSet_ne _ _ _ _ hksk]
            exact (hboldmem ks hks).1
          · show ks.2 < c.lru_counter + 1
            exact Nat.lt_succ_of_lt (hboldmem ks hks).2
        · simp only [List.mem_singleton] at hks
          rw [hks]
          constructor
          · show odLookup (odSet c.frequency k 1) k = some 1
            exact odLookup_odSet_self _ _ _
          · exact Nat.lt_succ_self c.lru_counter
      · show List.Pairwise (fun x y : Nat × Nat => x.2 < y.2)
            (odSet ((odLookup c.lru 1).getD []) k c.lru_counter)
        rw [hnewB]
        rw [List.pairwise_append]
        refine ⟨hboldpw, List.pairwise_singleton _ _, ?_⟩
        intro x hx y hy
        simp only [List.mem_singleton] at hy
        rw [hy]
        exact (hboldmem x hx).2
    · obtain ⟨hne', hnd', hmem', hpw'⟩ := hbok fb hfb
      refine ⟨hne', hnd', ?_, hpw'⟩
      intro ks hks
      have hksk : ks.1 ≠ k := by
        intro hh
        refine hnotbucket fb hfb ks.2 ?_
        rw [← hh]
        exact hks
      constructor
      · show odLookup (odSet c.frequency k 1) ks.1 = some fb.1
        rw [odLookup_odSet_ne _ _ _ _ hksk]
        exact (hmem' ks hks).1
      · show ks.2 < c.lru_counter + 1
        exact Nat.lt_succ_of_lt (hmem' ks hks).2
  · show (odSet c.cache_data k v).length ≤ maxItems
    rw [length_odSet_none _ _ _ hk]
    exact hlen

/-- On a well-formed state with a non-empty store, the eviction block
succeeds, removes the oldest entry of a minimum-frequency bucket from all
three structures, and emits exactly that key. -/
theorem evict_spec (maxItems : Nat) (c : LFUCache) (hwf : WF maxItems c)
    (hne : c.cache_data ≠ []) :
    ∃ ek mf s b,
      odLookup c.frequency ek = some mf ∧
      odLookup c.lru mf = some b ∧
      b.head? = some (ek, s) ∧
      (∀ kf ∈ c.frequency, mf ≤ kf.2) ∧
      (∀ x ∈ b, s ≤ x.2) ∧
      evict c = some ({ cache_data := odErase c.cache_data ek,
                        frequency := odErase c.frequency ek,
                        lru := if (odErase b ek).isEmpty then odErase c.lru mf
                               else odSet c.lru mf (odErase b ek),
                        lru_counter := c.lru_counter }, [ek]) := by
  obtain ⟨hnd_cd, hnd_fr, hnd_lru, hcdfr, hfr, hbok, hlen⟩ := hwf
  have hfr_ne : c.frequency ≠ [] := by
    cases hcd : c.cache_data with
    | nil => exact absurd hcd hne
    | cons kv tl =>
      have hkv := hcdfr kv (by rw [hcd]; exact List.mem_cons_self _ _)
      exact ne_nil_of_lookup_isSome _ _ hkv
  have hvals_ne : c.frequency.map Prod.snd ≠ [] := by
    intro h
    exact hfr_ne (List.map_eq_nil.mp h)
  obtain ⟨mf, hpm⟩ := Option.isSome_iff_exists.mp (pyMin_isSome _ hvals_ne)
  obtain ⟨kmf, hkmf_mem, hkmf_snd⟩ := List.mem_map.mp (pyMin_mem _ _ hpm)
  obtain ⟨hkcd, hk1, hkb⟩ := hfr kmf hkmf_mem
  rw [hkmf_snd] at hkb
  cases hlbm : odLookup c.lru mf with
  | none =>
    rw [hlbm] at hkb
    simp [odLookup] at hkb
  | some b =>
    rw [hlbm] at hkb
    simp only [Option.getD_some] at hkb
    obtain ⟨hbne, hbnd, hbmem, hbpw⟩ := hbok (mf, b) (odLookup_mem _ _ _ hlbm)
    obtain ⟨hd, tl, hb⟩ : ∃ hd tl, b = hd :: tl := by
      cases b with
      | nil => exact absurd rfl hbne
      | cons h t => exact ⟨h, t, rfl⟩
    obtain ⟨ek, s⟩ := hd
    have hekb : (ek, s) ∈ b := by
      rw [hb]
      exact List.mem_cons_self _ _
    have hek_fr : odLookup c.frequency ek = some mf := (hbmem (ek, s) hekb).1
    have hhead : b.head? = some (ek, s) := by rw [hb]; rfl
    have hcd_ek : (odLookup c.cache_data ek).isSome :=
      (hfr (ek, mf) (odLookup_mem _ _ _ hek_fr)).1
    have hfr_ek : (odLookup c.frequency ek).isSome := by rw [hek_fr]; rfl
    have hb_ek : (odLookup b ek).isSome := by
      rw [mem_odLookup b ek s hbnd hekb]
      rfl
    refine ⟨ek, mf, s, b, hek_fr, hlbm, hhead, ?_, ?_, ?_⟩
    · intro kf hkf
      exact pyMin_le _ _ hpm kf.2 (List.mem_map_of_mem Prod.snd hkf)
    · intro x hx
      rw [hb] at hx
      rcases List.mem_cons.mp hx with hx | hx
      · rw [hx]
      · rw [hb] at hbpw
        exact Nat.le_of_lt ((List.pairwise_cons.mp hbpw).1 x hx)
    · by_cases hemp2 : (odErase b ek).isEmpty
      · have hps : odPop (odSet c.lru mf (odErase b ek)) mf
            = some (odErase (odSet c.lru mf (odErase b ek)) mf) :=
          odPop_eq_some _ _ (by rw [odLookup_odSet_self]; rfl)
        simp [evict, hpm, hlbm, hhead, odPop_eq_some _ _ hcd_ek,
          odPop_eq_some _ _ hfr_ek, odPop_eq_some _ _ hb_ek, hemp2, hps,
          odErase_odSet]
      · simp [evict, hpm, hlbm, hhead, odPop_eq_some _ _ hcd_ek,
          odPop_eq_some _ _ hfr_ek, odPop_eq_some _ _ hb_ek, hemp2]

/-- Removing a key (present in bucket `b` at its frequency `mf`) from all
three structures preserves the invariant. -/
theorem wf_eraseState (maxItems : Nat) (c : LFUCache) (ek mf s : Nat)
    (b : List (Nat × Nat)) (hwf : WF maxItems c)
    (hek_fr : odLookup c.frequency ek = some mf)
    (hlbm : odLookup c.lru mf = some b)
    (hekb : (ek, s) ∈ b) :
    WF maxItems { cache_data := odErase c.cache_data ek,
                  frequency := odErase c.frequency ek,
                  lru := if (odErase b ek).isEmpty then odErase c.lru mf
                         else odSet c.lru mf (odErase b ek),
                  lru_counter := c.lru_counter } := by
  obtain ⟨hnd_cd, hnd_fr, hnd_lru, hcdfr, hfr, hbok, hlen⟩ := hwf
  obtain ⟨hbne, hbnd, hbmem, hbpw⟩ := hbok (mf, b) (odLookup_mem _ _ _ hlbm)
  have hcd_ek : (odLookup c.cache_data ek).isSome :=
    (hfr (ek, mf) (odLookup_mem _ _ _ hek_fr)).1
  obtain ⟨lru2v, hlru2eq, hl2ne, hl2nodup, hmem2, hlookf⟩ :
      ∃ lru2v, (if (odErase b ek).isEmpty then odErase c.lru mf
          else odSet c.lru mf (odErase b ek)) = lru2v ∧
        (∀ f2, f2 ≠ mf → odLookup lru2v f2 = odLookup c.lru f2) ∧
        (odKeys lru2v).Nodup ∧
        (∀ fb ∈ lru2v, (fb.1 = mf ∧ fb.2 = odErase b ek ∧ odErase b ek ≠ []) ∨
          (fb ∈ c.lru ∧ fb.1 ≠ mf)) ∧
        (odErase b ek ≠ [] → odLookup lru2v mf = some (odErase b ek)) := by
    by_cases hemp : (odErase b ek).isEmpty
    · refine ⟨odErase c.lru mf, by rw [if_pos hemp], ?_, ?_, ?_, ?_⟩
      · intro f2 hf2
        exact odLookup_odErase_ne _ _ _ hf2
      · exact odKeys_odErase_nodup _ _ hnd_lru
      · intro fb hfb
        exact Or.inr ((mem_odErase _ _ _ hnd_lru).mp hfb)
      · intro hne2
        exact absurd (List.isEmpty_iff.mp hemp) hne2
    · refine ⟨odSet c.lru mf (odErase b ek), by rw [if_neg hemp], ?_, ?_, ?_, ?_⟩
      · intro f2 hf2
        exact odLookup_odSet_ne _ _ _ _ hf2
      · exact odKeys_nodup_odSet _ _ _ hnd_lru
      · intro fb hfb
        rcases (mem_odSet_iff _ _ _ _ hnd_lru).mp hfb with h | h
        · left
          rw [h]
          refine ⟨rfl, rfl, ?_⟩
          intro hnil
          rw [hnil] at hemp
          exact hemp rfl
        · exact Or.inr h
      · intro _
        exact odLookup_odSet_self _ _ _
  rw [hlru2eq]
  refine ⟨?_, ?_, ?_, ?_, ?_, ?_, ?_⟩
  · show (odKeys (odErase c.cache_data ek)).Nodup
    exact odKeys_odErase_nodup _ _ hnd_cd
  · show (odKeys (odErase c.frequency ek)).Nodup
    exact odKeys_odErase_nodup _ _ hnd_fr
  · exact hl2nodup
  · show ∀ kv ∈ odErase c.cache_data ek,
        (odLookup (odErase c.frequency ek) kv.1).isSome
    intro kv hkv
    obtain ⟨hkv, hkvk⟩ := (mem_odErase _ _ _ hnd_cd).mp hkv
    rw [odLookup_odErase_ne _ _ _ hkvk]
    exact hcdfr kv hkv
  · show ∀ kf ∈ odErase c.frequency ek,
        (odLookup (odErase c.cache_data ek) kf.1).isSome ∧ 1 ≤ kf.2 ∧
        (odLookup ((odLookup lru2v kf.2).getD []) kf.1).isSome
    intro kf hkf
    obtain ⟨hkf, hkfk⟩ := (mem_odErase _ _ _ hnd_fr).mp hkf
    obtain ⟨hc1, h11, hb1⟩ := hfr kf hkf
    refine ⟨?_, h11, ?_⟩
    · rw [odLookup_odErase_ne _ _ _ hkfk]
      exact hc1
    · by_cases hf2 : kf.2 = mf
      · rw [hf2] at hb1
        rw [hlbm] at hb1
        simp only [Option.getD_some] at hb1
        have hbb1 : (odLookup (odErase b ek) kf.1).isSome := by
          rw [odLookup_odErase_ne _ _ _ hkfk]
          exact hb1
        rw [hf2, hlookf (ne_nil_of_lookup_isSome _ _ hbb1)]
        simp only [Option.getD_some]
        exact hbb1
      · rw [hl2ne _ hf2]
        exact hb1
  · show ∀ fb ∈ lru2v, bucketOK _ fb
    intro fb hfb
    rcases hmem2 fb hfb with ⟨hfbf, hfbb, hfbne0⟩ | ⟨hfbmem, hfbne⟩
    · refine ⟨?_, ?_, ?_, ?_⟩
      · rw [hfbb]
        exact hfbne0
      · rw [hfbb]
        exact odKeys_odErase_nodup _ _ hbnd
      · intro ks hks
        rw [hfbb] at hks
        obtain ⟨hksb, hksk⟩ := (mem_odErase _ _ _ hbnd).mp hks
        constructor
        · show odLookup (odErase c.frequency ek) ks.1 = some fb.1
          rw [odLookup_odErase_ne _ _ _ hksk, hfbf]
          exact (hbmem ks hksb).1
        · show ks.2 < c.lru_counter
          exact (hbmem ks hksb).2
      · rw [hfbb]
        exact hbpw.sublist (odErase_sublist b ek)
    · obtain ⟨hne', hnd', hmem', hpw'⟩ := hbok fb hfbmem
      refine ⟨hne', hnd', ?_, hpw'⟩
      intro ks hks
      have hksk : ks.1 ≠ ek := by
        intro hh
        have hmm := (hmem' ks hks).1
        rw [hh, hek_fr] at hmm
        exact hfbne (Option.some.inj hmm).symm
      constructor
      · show odLookup (odErase c.frequency ek) ks.1 = some fb.1
        rw [odLookup_odErase_ne _ _ _ hksk]
        exact (hmem' ks hks).1
      · show ks.2 < c.lru_counter
        exact (hmem' ks hks).2
  · show (odErase c.cache_data ek).length ≤ maxItems
    have hl := length_odErase c.cache_data ek hcd_ek
    omega

theorem odLookup_odErase_of_none {α : Type} (l : List (Nat × α)) (e k : Nat)
    (h : odLookup l k = none) : odLookup (odErase l e) k = none := by
  rw [← Option.not_isSome_iff_eq_none] at h ⊢
  intro hs
  refine h ?_
  rw [← mem_odKeys_iff_isSome] at hs ⊢
  exact ((odErase_sublist l e).map Prod.fst).subset hs

theorem fr_nil_of_cd_nil (maxItems : Nat) (c : LFUCache) (hwf : WF maxItems c)
    (hcd : c.cache_data = []) : c.frequency = [] := by
  obtain ⟨_, _, _, _, hfr, _, _⟩ := hwf
  cases hfr0 : c.frequency with
  | nil => rfl
  | cons kf tl =>
    have hc := (hfr kf (by rw [hfr0]; exact List.mem_cons_self _ _)).1
    rw [hcd] at hc
    simp [odLookup] at hc

theorem evict_none (c : LFUCache) (hfr : c.frequency = []) :
    evict c = none := by
  simp [evict, hfr, pyMin]

theorem put_null_key (maxItems : Nat) (c : LFUCache) (item : Option Nat) :
    put maxItems c none item = some (c, []) := rfl

theorem put_null_item (maxItems : Nat) (c : LFUCache) (k : Nat) :
    put maxItems c (some k) none = some (c, []) := rfl

/-- `put` on a present key overwrites the value and then promotes via
`self.get(key)`. -/
theorem put_hit (maxItems : Nat) (c : LFUCache) (k v w : Nat)
    (hwf : WF maxItems c) (hw : odLookup c.cache_data k = some w) :
    ∃ f, odLookup c.frequency k = some f ∧
      put maxItems c (some k) (some v)
        = some (promote { c with cache_data := odSet c.cache_data k v } k f,
                []) := by
  have hwf1 := wf_setValue maxItems c k v hwf (by rw [hw]; rfl)
  have hv1 : odLookup (odSet c.cache_data k v) k = some v :=
    odLookup_odSet_self _ _ _
  obtain ⟨f, hf, _, _, hget⟩ := get_hit maxItems _ k v hwf1 hv1
  refine ⟨f, hf, ?_⟩
  simp [put, hw, hget]

/-- `put` of a fresh key below capacity: plain insertion, no output. -/
theorem put_new_notfull (maxItems : Nat) (c : LFUCache) (k v : Nat)
    (hk : odLookup c.cache_data k = none)
    (hnf : ¬ maxItems ≤ c.cache_data.length) :
    put maxItems c (some k) (some v) = some (insertNew c k v, []) := by
  simp [put, hk, hnf, insertNew]

/-- `put` of a fresh key at capacity: evict the oldest minimum-frequency
entry, emit it, then insert. -/
theorem put_new_full (maxItems : Nat) (c : LFUCache) (k v : Nat)
    (hwf : WF maxItems c) (hk : odLookup c.cache_data k = none)
    (hfull : maxItems ≤ c.cache_data.length) (hne : c.cache_data ≠ []) :
    ∃ ek mf s b,
      odLookup c.frequency ek = some mf ∧
      odLookup c.lru mf = some b ∧
      b.head? = some (ek, s) ∧
      (∀ kf ∈ c.frequency, mf ≤ kf.2) ∧
      (∀ x ∈ b, s ≤ x.2) ∧
      put maxItems c (some k) (some v)
        = some (insertNew
            { cache_data := odErase c.cache_data ek,
              frequency := odErase c.frequency ek,
              lru := if (odErase b ek).isEmpty then odErase c.lru mf
                     else odSet c.lru mf (odErase b ek),
              lru_counter := c.lru_counter } k v, [ek]) := by
  obtain ⟨ek, mf, s, b, h1, h2, h3, h4, h5, hev⟩ := evict_spec maxItems c hwf hne
  refine ⟨ek, mf, s, b, h1, h2, h3, h4, h5, ?_⟩
  simp [put, hk, hfull, hev, insertNew]

/-- Any state produced by a successful `put` is well formed. -/
theorem wf_put (maxItems : Nat) (c : LFUCache) (hwf : WF maxItems c) :
    ∀ key item r, put maxItems c key item = some r → WF maxItems r.1 := by
  intro key item r hr
  match key, item with
  | none, _ =>
    rw [put_null_key] at hr
    cases hr
    exact hwf
  | some k, none =>
    rw [put_null_item] at hr
    cases hr
    exact hwf
  | some k, some v =>
    cases hkd : odLookup c.cache_data k with
    | some w =>
      obtain ⟨f, hf, hput⟩ := put_hit maxItems c k v w hwf hkd
      rw [hput] at hr
      cases hr
      exact wf_promote maxItems _ k f v
        (wf_setValue maxItems c k v hwf (by rw [hkd]; rfl))
        (odLookup_odSet_self _ _ _) hf
    | none =>
      by_cases hfull : maxItems ≤ c.cache_data.length
      · by_cases hcd : c.cache_data = []
        · have hfr0 := fr_nil_of_cd_nil maxItems c hwf hcd
          have hnone : put maxItems c (some k) (some v) = none := by
            simp [put, hkd, hfull, evict_none c hfr0]
          rw [hnone] at hr
          exact Option.noConfusion hr
        · obtain ⟨ek, mf, s, b, h1, h2, h3, h4, h5, hput⟩ :=
            put_new_full maxItems c k v hwf hkd hfull hcd
          rw [hput] at hr
          cases hr
          have hwfe := wf_eraseState maxItems c ek mf s b hwf h1 h2
            (List.mem_of_mem_head? h3)
          obtain ⟨_, _, _, _, hfr, _, hlen⟩ := hwf
          have hcd_ek : (odLookup c.cache_data ek).isSome :=
            (hfr (ek, mf) (odLookup_mem _ _ _ h1)).1
          have hle := length_odErase c.cache_data ek hcd_ek
          refine wf_insertNew maxItems _ k v hwfe ?_ ?_
          · exact odLookup_odErase_of_none _ _ _ hkd
          · show (odErase c.cache_data ek).length < maxItems
            omega
      · rw [put_new_notfull maxItems c k v hkd hfull] at hr
        cases hr
        exact wf_insertNew maxItems c k v hwf hkd (Nat.lt_of_not_le hfull)

/-- Any state produced by a successful call is well formed. -/
theorem wf_runOp (maxItems : Nat) (c : LFUCache) (hwf : WF maxItems c) :
    ∀ op r, runOp maxItems c op = some r → WF maxItems r.1 := by
  intro op r hr
  cases op with
  | opPut key item => exact wf_put maxItems c hwf key item r hr
  | opGet key =>
    cases hget : get c key with
    | none =>
      rw [runOp, hget] at hr
      exact Option.noConfusion hr
    | some p =>
      rw [runOp, hget] at hr
      cases hr
      exact wf_get maxItems c hwf key p hget

/-- The freshly constructed cache is well formed. -/
theorem wf_initCache (maxItems : Nat) : WF maxItems initCache := by
  refine ⟨?_, ?_, ?_, ?_, ?_, ?_, ?_⟩ <;> simp [initCache, odKeys]

theorem wf_runOps (maxItems : Nat) (ops : List Op) :
    ∀ c0 c, WF maxItems c0 → runOps maxItems c0 ops = some c →
      WF maxItems c := by
  induction ops with
  | nil =>
    intro c0 c hwf hr
    rw [runOps] at hr
    cases hr
    exact hwf
  | cons op ops ih =>
    intro c0 c hwf hr
    rw [runOps] at hr
    cases hstep : runOp maxItems c0 op with
    | none =>
      rw [hstep] at hr
      exact Option.noConfusion hr
    | some r =>
      rw [hstep] at hr
      exact ih r.1 c (wf_runOp maxItems c0 hwf op r hstep) hr

/-- Every reachable state satisfies the internal invariant. -/
theorem reachable_wf (maxItems : Nat) (c : LFUCache)
    (h : Reachable maxItems c) : WF maxItems c := by
  obtain ⟨ops, hops⟩ := h
  exact wf_runOps maxItems ops initCache c (wf_initCache maxItems) hops

/-- Running `ops` and then one more call is running `ops ++ [op]`. -/
theorem runOps_snoc (maxItems : Nat) (ops : List Op) :
    ∀ c0 c r op, runOps maxItems c0 ops = some c →
      runOp maxItems c op = some r →
      runOps maxItems c0 (ops ++ [op]) = some r.1 := by
  induction ops with
  | nil =>
    intro c0 c r op h1 h2
    rw [runOps] at h1
    cases h1
    obtain ⟨c1, out⟩ := r
    simp [runOps, h2]
  | cons op0 ops0 ih =>
    intro c0 c r op h1 h2
    rw [runOps] at h1
    cases hstep : runOp maxItems c0 op0 with
    | none =>
      rw [hstep] at h1
      exact Option.noConfusion h1
    | some r0 =>
      rw [hstep] at h1
      obtain ⟨c1, out0⟩ := r0
      show runOps maxItems c0 ((op0 :: ops0) ++ [op]) = some r.1
      rw [List.cons_append, runOps, hstep]
      exact ih c1 c r op h1 h2

/-- A reachable state stepped by one successful call is still reachable. -/
theorem reachable_runOp (maxItems : Nat) (c : LFUCache)
    (h : Reachable maxItems c) :
    ∀ op r, runOp maxItems c op = some r → Reachable maxItems r.1 := by
  intro op r hr
  obtain ⟨ops, hops⟩ := h
  exact ⟨ops ++ [op], runOps_snoc maxItems ops initCache c r op hops hr⟩

/-- On a well-formed state, `get` never raises. -/
theorem get_total (maxItems : Nat) (c : LFUCache) (hwf : WF maxItems c)
    (key : Option Nat) : (get c key).isSome := by
  cases key with
  | none =>
    rw [get_none]
    rfl
  | some k =>
    cases hv : odLookup c.cache_data k with
    | none =>
      rw [get_miss _ _ hv]
      rfl
    | some v =>
      obtain ⟨f, _, _, _, hget⟩ := get_hit maxItems c k v hwf hv
      rw [hget]
      rfl

/-- On a well-formed state with positive capacity, `put` never raises. -/
theorem put_total (maxItems : Nat) (c : LFUCache) (hwf : WF maxItems c)
    (hpos : 0 < maxItems) (key item : Option Nat) :
    (put maxItems c key item).isSome := by
  match key, item with
  | none, item =>
    rw [put_null_key]
    rfl
  | some k, none =>
    rw [put_null_item]
    rfl
  | some k, some v =>
    cases hkd : odLookup c.cache_data k with
    | some w =>
      obtain ⟨f, _, hput⟩ := put_hit maxItems c k v w hwf hkd
      rw [hput]
      rfl
    | none =>
      by_cases hfull : maxItems ≤ c.cache_data.length
      · have hne : c.cache_data ≠ [] := by
          intro h0
          rw [h0] at hfull
          simp at hfull
          omega
        obtain ⟨ek, mf, s, b, _, _, _, _, _, hput⟩ :=
          put_new_full maxItems c k v hwf hkd hfull hne
        rw [hput]
        rfl
      · rw [put_new_notfull maxItems c k v hkd hfull]
        rfl

/-- A key outside the store is outside the frequency map. -/
theorem frequency_none_of_cd_none (maxItems : Nat) (c : LFUCache)
    (hwf : WF maxItems c) (k : Nat) (h : odLookup c.cache_data k = none) :
    odLookup c.frequency k = none := by
  obtain ⟨_, _, _, _, hfr, _, _⟩ := hwf
  cases hfk : odLookup c.frequency k with
  | none => rfl
  | some f =>
    have hc := (hfr (k, f) (odLookup_mem _ _ _ hfk)).1
    rw [h] at hc
    simp at hc

/-- How one successful call can change the recorded frequency of a key:
unchanged, incremented by one (key was in the store), reset to 1 (key was
not in the store), or dropped (key evicted). -/
theorem freq_step (maxItems : Nat) (c : LFUCache) (hwf : WF maxItems c)
    (op : Op) (r : LFUCache × List Nat)
    (hstep : runOp maxItems c op = some r) (k : Nat) :
    odLookup r.1.frequency k = odLookup c.frequency k ∨
    (∃ f, odLookup c.frequency k = some f ∧
      odLookup r.1.frequency k = some (f + 1) ∧
      (odLookup c.cache_data k).isSome) ∨
    (odLookup r.1.frequency k = some 1 ∧ odLookup c.cache_data k = none) ∨
    odLookup r.1.frequency k = none := by
  obtain ⟨hnd_cd, hnd_fr, hnd_lru, hcdfr, hfr, hbok, hlen⟩ := hwf
  have hwf' : WF maxItems c :=
    ⟨hnd_cd, hnd_fr, hnd_lru, hcdfr, hfr, hbok, hlen⟩
  cases op with
  | opGet key =>
    cases key with
    | none =>
      rw [runOp, get_none] at hstep
      cases hstep
      exact Or.inl rfl
    | some k0 =>
      cases hv : odLookup c.cache_data k0 with
      | none =>
        rw [runOp, get_miss _ _ hv] at hstep
        cases hstep
        exact Or.inl rfl
      | some v =>
        obtain ⟨f0, hf0, _, _, hget⟩ := get_hit maxItems c k0 v hwf' hv
        rw [runOp, hget] at hstep
        cases hstep
        by_cases hk : k = k0
        · subst hk
          refine Or.inr (Or.inl ⟨f0, hf0, ?_, by rw [hv]; rfl⟩)
          show odLookup (odSet c.frequency k (f0 + 1)) k = some (f0 + 1)
          exact odLookup_odSet_self _ _ _
        · refine Or.inl ?_
          show odLookup (odSet c.frequency k0 (f0 + 1)) k
              = odLookup c.frequency k
          exact odLookup_odSet_ne _ _ _ _ hk
  | opPut key item =>
    match key, item with
    | none, item =>
      rw [runOp, put_null_key] at hstep
      cases hstep
      exact Or.inl rfl
    | some k0, none =>
      rw [runOp, put_null_item] at hstep
      cases hstep
      exact Or.inl rfl
    | some k0, some v =>
      cases hkd : odLookup c.cache_data k0 with
      | some w =>
        obtain ⟨f0, hf0, hput⟩ := put_hit maxItems c k0 v w hwf' hkd
        rw [runOp, hput] at hstep
        cases hstep
        by_cases hk : k = k0
        · subst hk
          refine Or.inr (Or.inl ⟨f0, hf0, ?_, by rw [hkd]; rfl⟩)
          show odLookup (odSet c.frequency k (f0 + 1)) k = some (f0 + 1)
          exact odLookup_odSet_self _ _ _
        · refine Or.inl ?_
          show odLookup (odSet c.frequency k0 (f0 + 1)) k
              = odLookup c.frequency k
          exact odLookup_odSet_ne _ _ _ _ hk
      | none =>
        by_cases hfull : maxItems ≤ c.cache_data.length
        · by_cases hcd : c.cache_data = []
          · have hfr0 := fr_nil_of_cd_nil maxItems c hwf' hcd
            have hnone : put maxItems c (some k0) (some v) = none := by
              simp [put, hkd, hfull, evict_none c hfr0]
            rw [runOp, hnone] at hstep
            exact Option.noConfusion hstep
          · obtain ⟨ek, mf, s, b, h1, h2, h3, h4, h5, hput⟩ :=
              put_new_full maxItems c k0 v hwf' hkd hfull hcd
            rw [runOp, hput] at hstep
            cases hstep
            have hek_ne : ek ≠ k0 := by
              intro hh
              rw [hh, frequency_none_of_cd_none maxItems c hwf' k0 hkd] at h1
              exact Option.noConfusion h1
            by_cases hk : k = k0
            · subst hk
              refine Or.inr (Or.inr (Or.inl ⟨?_, hkd⟩))
              show odLookup (odSet (odErase c.frequency ek) k 1) k = some 1
              exact odLookup_odSet_self _ _ _
            · by_cases hke : k = ek
              · subst hke
                refine Or.inr (Or.inr (Or.inr ?_))
                show odLookup (odSet (odErase c.frequency k) k0 1) k = none
                rw [odLookup_odSet_ne _ _ _ _ hk]
                exact odLookup_odErase_self _ _ hnd_fr
              · refine Or.inl ?_
                show odLookup (odSet (odErase c.frequency ek) k0 1) k
                    = odLookup c.frequency k
                rw [odLookup_odSet_ne _ _ _ _ hk]
                exact odLookup_odErase_ne _ _ _ hke
        · rw [runOp, put_new_notfull maxItems c k0 v hkd hfull] at hstep
          cases hstep
          by_cases hk : k = k0
          · subst hk
            refine Or.inr (Or.inr (Or.inl ⟨?_, hkd⟩))
            show odLookup (odSet c.frequency k 1) k = some 1
            exact odLookup_odSet_self _ _ _
          · refine Or.inl ?_
            show odLookup (odSet c.frequency k0 1) k = odLookup c.frequency k
            exact odLookup_odSet_ne _ _ _ _ hk

/-- Bucket lookups after the promotion step: the `f+1` bucket gains
`(k, counter)` at its end, the `f` bucket loses `k` (disappearing when it
empties), all other buckets are untouched. -/
theorem promoteLru_lookup (maxItems : Nat) (c : LFUCache) (k f : Nat)
    (hwf : WF maxItems c) (hf : odLookup c.frequency k = some f)
    (b : List (Nat × Nat)) (hlb : odLookup c.lru f = some b) :
    (∃ nb, odLookup (promoteLru c k f) (f + 1) = some nb ∧
      nb = (odLookup c.lru (f + 1)).getD [] ++ [(k, c.lru_counter)] ∧
      ∀ k2, k2 ≠ k → odLookup nb k2
        = odLookup ((odLookup c.lru (f + 1)).getD []) k2) ∧
    odLookup (promoteLru c k f) f
      = (if (odErase b k).isEmpty then none else some (odErase b k)) ∧
    (∀ f2, f2 ≠ f → f2 ≠ f + 1 →
      odLookup (promoteLru c k f) f2 = odLookup c.lru f2) := by
  obtain ⟨hnd_cd, hnd_fr, hnd_lru, hcdfr, hfr, hbok, hlen⟩ := hwf
  have hne_succ : (f : Nat) + 1 ≠ f := Nat.succ_ne_self f
  have hboldk : odLookup ((odLookup c.lru (f + 1)).getD []) k = none := by
    cases hlb2 : odLookup c.lru (f + 1) with
    | none => rfl
    | some b2 =>
      simp only [Option.getD_some]
      cases hlk : odLookup b2 k with
      | none => rfl
      | some s =>
        have hks := ((hbok (f + 1, b2) (odLookup_mem _ _ _ hlb2)).2.2.1
          (k, s) (odLookup_mem _ _ _ hlk)).1
        rw [hf] at hks
        exact absurd (Option.some.inj hks).symm hne_succ
  by_cases hemp : (odErase b k).isEmpty
  · have hplru : promoteLru c k f = odSet (odErase c.lru f) (f + 1)
        (odSet ((odLookup (odErase c.lru f) (f + 1)).getD [])
          k c.lru_counter) := by
      simp [promoteLru, hlb, hemp]
    have hl2 : odLookup (odErase c.lru f) (f + 1) = odLookup c.lru (f + 1) :=
      odLookup_odErase_ne _ _ _ hne_succ
    refine ⟨⟨odSet ((odLookup (odErase c.lru f) (f + 1)).getD [])
      k c.lru_counter, ?_, ?_, ?_⟩, ?_, ?_⟩
    · rw [hplru]
      exact odLookup_odSet_self _ _ _
    · rw [hl2]
      exact odSet_eq_append _ _ _ hboldk
    · intro k2 hk2
      rw [odLookup_odSet_ne _ _ _ _ hk2, hl2]
    · rw [hplru, odLookup_odSet_ne _ _ _ _ (Ne.symm hne_succ),
        odLookup_odErase_self _ _ hnd_lru, if_pos hemp]
    · intro f2 h2f h2f1
      rw [hplru, odLookup_odSet_ne _ _ _ _ h2f1, odLookup_odErase_ne _ _ _ h2f]
  · have hplru : promoteLru c k f = odSet (odSet c.lru f (odErase b k)) (f + 1)
        (odSet ((odLookup (odSet c.lru f (odErase b k)) (f + 1)).getD [])
          k c.lru_counter) := by
      simp [promoteLru, hlb, hemp]
    have hl2 : odLookup (odSet c.lru f (odErase b k)) (f + 1)
        = odLookup c.lru (f + 1) :=
      odLookup_odSet_ne _ _ _ _ hne_succ
    refine ⟨⟨odSet ((odLookup (odSet c.lru f (odErase b k)) (f + 1)).getD [])
      k c.lru_counter, ?_, ?_, ?_⟩, ?_, ?_⟩
    · rw [hplru]
      exact odLookup_odSet_self _ _ _
    · rw [hl2]
      exact odSet_eq_append _ _ _ hboldk
    · intro k2 hk2
      rw [odLookup_odSet_ne _ _ _ _ hk2, hl2]
    · rw [hplru, odLookup_odSet_ne _ _ _ _ (Ne.symm hne_succ),
        odLookup_odSet_self, if_neg hemp]
    · intro f2 h2f h2f1
      rw [hplru, odLookup_odSet_ne _ _ _ _ h2f1, odLookup_odSet_ne _ _ _ _ h2f]

/-- `get` never changes the value store. -/
theorem get_preserves_cd (maxItems : Nat) (c : LFUCache) (hwf : WF maxItems c) :
    ∀ key q, get c key = some q → q.1.cache_data = c.cache_data := by
  intro key q hq
  cases key with
  | none =>
    rw [get_none] at hq
    cases hq
    rfl
  | some k =>
    cases hv : odLookup c.cache_data k with
    | none =>
      rw [get_miss _ _ hv] at hq
      cases hq
      rfl
    | some v =>
      obtain ⟨f, _, _, _, hget⟩ := get_hit maxItems c k v hwf hv
      rw [hget] at hq
      cases hq
      rfl

/-! ### The claims -/

/-- C1: when `put` is called with a fresh key on a reachable state whose
store holds `maxItems` keys, the evicted key `ek` (removed from the store
and named in the single `DISCARD` notification) has the minimum frequency
over all keys in the store, and among the members of that frequency's
bucket it carries the smallest insertion/promotion sequence stamp. -/
theorem c1_eviction_min_freq_then_oldest (maxItems : Nat) (c : LFUCache)
    (k v : Nat) (hr : Reachable maxItems c) (hpos : 0 < maxItems)
    (hfull : c.cache_data.length = maxItems)
    (hnew : odLookup c.cache_data k = none) :
    ∃ ek fek sek b c',
      put maxItems c (some k) (some v) = some (c', [ek]) ∧
      (odLookup c.cache_data ek).isSome ∧
      odLookup c'.cache_data ek = none ∧
      odLookup c.frequency ek = some fek ∧
      (∀ k2 w2, odLookup c.cache_data k2 = some w2 →
        ∃ f2, odLookup c.frequency k2 = some f2 ∧ fek ≤ f2) ∧
      odLookup c.lru fek = some b ∧
      odLookup b ek = some sek ∧
      (∀ x ∈ b, sek ≤ x.2) := by
  have hwf := reachable_wf maxItems c hr
  have hne : c.cache_data ≠ [] := by
    intro h0
    rw [h0] at hfull
    simp at hfull
    omega
  obtain ⟨ek, mf, s, b, h1, h2, h3, h4, h5, hput⟩ :=
    put_new_full maxItems c k v hwf hnew (le_of_eq hfull.symm) hne
  obtain ⟨hnd_cd, _, _, hcdfr, hfr, hbok, _⟩ := hwf
  obtain ⟨_, hbnd, _, _⟩ := hbok (mf, b) (odLookup_mem _ _ _ h2)
  have hsek : odLookup b ek = some s :=
    mem_odLookup _ _ _ hbnd (List.mem_of_mem_head? h3)
  have hek_cd : (odLookup c.cache_data ek).isSome :=
    (hfr (ek, mf) (odLookup_mem _ _ _ h1)).1
  have hek_ne_k : ek ≠ k := by
    intro hh
    rw [hh, hnew] at hek_cd
    simp at hek_cd
  refine ⟨ek, mf, s, b, _, hput, hek_cd, ?_, h1, ?_, h2, hsek, h5⟩
  · show odLookup (odSet (odErase c.cache_data ek) k v) ek = none
    rw [odLookup_odSet_ne _ _ _ _ hek_ne_k]
    exact odLookup_odErase_self _ _ hnd_cd
  · intro k2 w2 hw2
    obtain ⟨f2, hf2⟩ :=
      Option.isSome_iff_exists.mp (hcdfr (k2, w2) (odLookup_mem _ _ _ hw2))
    exact ⟨f2, hf2, h4 (k2, f2) (odLookup_mem _ _ _ hf2)⟩

/-- C2: after any sequence of calls from a fresh cache, the store holds
pairwise-distinct keys and never more than `maxItems` of them. -/
theorem c2_capacity_invariant (maxItems : Nat) (ops : List Op) (c : LFUCache)
    (h : runOps maxItems initCache ops = some c) :
    (odKeys c.cache_data).Nodup ∧ c.cache_data.length ≤ maxItems := by
  obtain ⟨hnd, _, _, _, _, _, hlen⟩ :=
    wf_runOps maxItems ops initCache c (wf_initCache maxItems) h
  exact ⟨hnd, hlen⟩

/-- C3: on a reachable state, `get` of a present key returns its stored
value and promotes it: frequency goes from `f` to `f + 1`, the key leaves
the `f` bucket (which is dropped if it only held that key), and it is
appended to the `f + 1` bucket as its most recent member, stamped with
the fresh counter value; `get` of an absent or null key returns "not
found" and changes nothing. -/
theorem c3_get_promotes (maxItems : Nat) (c : LFUCache)
    (hr : Reachable maxItems c) :
    (∀ k v, odLookup c.cache_data k = some v →
      ∃ f c', odLookup c.frequency k = some f ∧
        get c (some k) = some (c', some v) ∧
        odLookup c'.frequency k = some (f + 1) ∧
        c'.lru_counter = c.lru_counter + 1 ∧
        (∀ b', odLookup c'.lru f = some b' → odLookup b' k = none) ∧
        (∃ b', odLookup c'.lru (f + 1) = some b' ∧
          b'.getLast? = some (k, c.lru_counter)) ∧
        (∀ b, odLookup c.lru f = some b → odKeys b = [k] →
          odLookup c'.lru f = none)) ∧
    (∀ k, odLookup c.cache_data k = none →
      get c (some k) = some (c, none)) ∧
    get c none = some (c, none) := by
  have hwf := reachable_wf maxItems c hr
  refine ⟨?_, fun k h => get_miss c k h, get_none c⟩
  intro k v hv
  obtain ⟨f, hf, hlbs, hbks, hget⟩ := get_hit maxItems c k v hwf hv
  obtain ⟨b, hlb⟩ := Option.isSome_iff_exists.mp hlbs
  rw [hlb] at hbks
  simp only [Option.getD_some] at hbks
  obtain ⟨hnd_cd, hnd_fr, hnd_lru, hcdfr, hfr, hbok, hlen⟩ := hwf
  have hwf' : WF maxItems c :=
    ⟨hnd_cd, hnd_fr, hnd_lru, hcdfr, hfr, hbok, hlen⟩
  obtain ⟨_, hbnd, _, _⟩ := hbok (f, b) (odLookup_mem _ _ _ hlb)
  obtain ⟨⟨nb, hnb, hnbapp, _⟩, hlkf, _⟩ :=
    promoteLru_lookup maxItems c k f hwf' hf b hlb
  refine ⟨f, promote c k f, hf, hget, ?_, rfl, ?_, ?_, ?_⟩
  · show odLookup (odSet c.frequency k (f + 1)) k = some (f + 1)
    exact odLookup_odSet_self _ _ _
  · intro b' hb'
    show odLookup b' k = none
    rw [show (promote c k f).lru = promoteLru c k f from rfl] at hb'
    rw [hlkf] at hb'
    by_cases hemp : (odErase b k).isEmpty
    · rw [if_pos hemp] at hb'
      exact Option.noConfusion hb'
    · rw [if_neg hemp] at hb'
      cases hb'
      exact odLookup_odErase_self _ _ hbnd
  · refine ⟨nb, hnb, ?_⟩
    rw [hnbapp]
    simp
  · intro b0 hb0 hkeys
    rw [hlb] at hb0
    have hbb := Option.some.inj hb0
    subst hbb
    have herase : odErase b k = [] := by
      cases hb00 : b with
      | nil =>
        rfl
      | cons x tl =>
        rw [hb00] at hkeys
        simp only [odKeys, List.map_cons, List.cons.injEq] at hkeys
        obtain ⟨hx1, htl⟩ := hkeys
        have htl' : tl = [] := List.map_eq_nil.mp htl
        rw [htl']
        simp [odErase, hx1]
    show odLookup (promoteLru c k f) f = none
    rw [hlkf, herase]
    rfl

/-- C4: `put` on a present key overwrites the stored value, promotes the
key exactly like `get` does (frequency `f` to `f + 1`), leaves the key
set and store size unchanged, and evicts nothing (empty notification
stream), even at full capacity. -/
theorem c4_overwrite_promotes (maxItems : Nat) (c : LFUCache) (k v w : Nat)
    (hr : Reachable maxItems c) (hw : odLookup c.cache_data k = some w) :
    ∃ f c',
      odLookup c.frequency k = some f ∧
      put maxItems c (some k) (some v) = some (c', []) ∧
      get { c with cache_data := odSet c.cache_data k v } (some k)
        = some (c', some v) ∧
      odLookup c'.cache_data k = some v ∧
      odLookup c'.frequency k = some (f + 1) ∧
      c'.cache_data.length = c.cache_data.length ∧
      odKeys c'.cache_data = odKeys c.cache_data := by
  have hwf := reachable_wf maxItems c hr
  obtain ⟨f, hf, hput⟩ := put_hit maxItems c k v w hwf hw
  have hwi : (odLookup c.cache_data k).isSome := by rw [hw]; rfl
  have hwf1 := wf_setValue maxItems c k v hwf hwi
  obtain ⟨f', hf', _, _, hget⟩ :=
    get_hit maxItems _ k v hwf1 (odLookup_odSet_self _ _ _)
  have hf'' : odLookup c.frequency k = some f' := hf'
  rw [hf] at hf''
  have hffeq : f' = f := (Option.some.inj hf'').symm
  rw [hffeq] at hget
  refine ⟨f, promote { c with cache_data := odSet c.cache_data k v } k f,
    hf, hput, hget, ?_, ?_, ?_, ?_⟩
  · show odLookup (odSet c.cache_data k v) k = some v
    exact odLookup_odSet_self _ _ _
  · show odLookup (odSet c.frequency k (f + 1)) k = some (f + 1)
    exact odLookup_odSet_self _ _ _
  · show (odSet c.cache_data k v).length = c.cache_data.length
    exact length_odSet_isSome _ _ _ hwi
  · show odKeys (odSet c.cache_data k v) = odKeys c.cache_data
    exact odKeys_odSet_of_isSome _ _ _ hwi

/-- C5: after any successful call from a reachable state, every stored
key has exactly one frequency entry and sits in exactly the bucket of its
frequency, and no empty bucket is present in the index. -/
theorem c5_structures_consistent (maxItems : Nat) (c : LFUCache) (op : Op)
    (r : LFUCache × List Nat) (hr : Reachable maxItems c)
    (hstep : runOp maxItems c op = some r) :
    (odKeys r.1.frequency).Nodup ∧
    (∀ k w, odLookup r.1.cache_data k = some w →
      ∃ f, odLookup r.1.frequency k = some f ∧
        ∃ b, odLookup r.1.lru f = some b ∧ (odLookup b k).isSome ∧
          ∀ f2 b2, odLookup r.1.lru f2 = some b2 → k ∈ odKeys b2 →
            f2 = f) ∧
    (∀ fb ∈ r.1.lru, fb.2 ≠ []) := by
  obtain ⟨_, hnd_fr, _, hcdfr, hfr, hbok, _⟩ :=
    wf_runOp maxItems c (reachable_wf maxItems c hr) op r hstep
  refine ⟨hnd_fr, ?_, fun fb hfb => (hbok fb hfb).1⟩
  intro k w hw
  obtain ⟨f, hf⟩ :=
    Option.isSome_iff_exists.mp (hcdfr (k, w) (odLookup_mem _ _ _ hw))
  obtain ⟨_, _, hbkt⟩ := hfr (k, f) (odLookup_mem _ _ _ hf)
  cases hlb : odLookup r.1.lru f with
  | none =>
    rw [hlb] at hbkt
    simp [odLookup] at hbkt
  | some b =>
    rw [hlb] at hbkt
    simp only [Option.getD_some] at hbkt
    refine ⟨f, hf, b, hlb, hbkt, ?_⟩
    intro f2 b2 hlb2 hkb2
    obtain ⟨x, hx, hxk⟩ := List.mem_map.mp hkb2
    have hxfreq := ((hbok (f2, b2) (odLookup_mem _ _ _ hlb2)).2.2.1 x hx).1
    rw [hxk, hf] at hxfreq
    exact (Option.some.inj hxfreq).symm

/-- C6: a null key or null value makes `put` a silent no-op, and `get` of
null returns "not found" without touching any state, on every state. -/
theorem c6_null_safety (maxItems : Nat) (c : LFUCache) (k : Nat)
    (item : Option Nat) :
    put maxItems c none item = some (c, []) ∧
    put maxItems c (some k) none = some (c, []) ∧
    get c none = some (c, none) :=
  ⟨rfl, rfl, rfl⟩

/-- C7: across one successful call from a reachable state, the frequency
of a key that stays in the store never decreases, and a key absent from
the store beforehand can only (re)appear with frequency exactly 1. -/
theorem c7_frequency_monotone (maxItems : Nat) (c : LFUCache) (op : Op)
    (r : LFUCache × List Nat) (hr : Reachable maxItems c)
    (hstep : runOp maxItems c op = some r) :
    (∀ k f f', odLookup c.frequency k = some f →
      odLookup r.1.frequency k = some f' →
      (odLookup c.cache_data k).isSome →
      (odLookup r.1.cache_data k).isSome → f ≤ f') ∧
    (∀ k f', odLookup c.cache_data k = none →
      odLookup r.1.frequency k = some f' → f' = 1) := by
  have hwf := reachable_wf maxItems c hr
  constructor
  · intro k f f' hf hf' hcd hcd'
    rcases freq_step maxItems c hwf op r hstep k with
      h | ⟨f0, h0, h0', _⟩ | ⟨h1, h2⟩ | h
    · rw [h, hf] at hf'
      exact le_of_eq (Option.some.inj hf')
    · rw [h0] at hf
      rw [h0'] at hf'
      have e1 := Option.some.inj hf
      have e2 := Option.some.inj hf'
      omega
    · rw [h2] at hcd
      simp at hcd
    · rw [h] at hf'
      exact Option.noConfusion hf'
  · intro k f' hk hf'
    rcases freq_step maxItems c hwf op r hstep k with
      h | ⟨f0, h0, h0', hcd0⟩ | ⟨h1, h2⟩ | h
    · rw [h, frequency_none_of_cd_none maxItems c hwf k hk] at hf'
      exact Option.noConfusion hf'
    · rw [hk] at hcd0
      simp at hcd0
    · rw [h1] at hf'
      exact (Option.some.inj hf').symm
    · rw [h] at hf'
      exact Option.noConfusion hf'

/-- C8: on every reachable state with positive capacity, `put` and `get`
return normally for all arguments (nulls and full capacity included): no
raising path — empty-minimum or empty-bucket selection — is reachable. -/
theorem c8_never_raises (maxItems : Nat) (c : LFUCache)
    (hr : Reachable maxItems c) (hpos : 0 < maxItems) :
    (∀ key item, (put maxItems c key item).isSome) ∧
    (∀ key, (get c key).isSome) := by
  have hwf := reachable_wf maxItems c hr
  exact ⟨fun key item => put_total maxItems c hwf hpos key item,
         fun key => get_total maxItems c hwf key⟩

/-- C9: a `put` that evicts emits exactly one notification, carrying
exactly the evicted key; a `put` that evicts nothing emits nothing, and
`get` never emits and never removes a key. -/
theorem c9_notification_iff_eviction (maxItems : Nat) (c : LFUCache)
    (hr : Reachable maxItems c) :
    (∀ key item c' out, put maxItems c key item = some (c', out) →
      (∃ ek, out = [ek] ∧ ek ∈ odKeys c.cache_data ∧
        ek ∉ odKeys c'.cache_data) ∨
      (out = [] ∧ ∀ k2 ∈ odKeys c.cache_data, k2 ∈ odKeys c'.cache_data)) ∧
    (∀ key p, runOp maxItems c (Op.opGet key) = some p →
      p.2 = [] ∧ ∀ k2 ∈ odKeys c.cache_data, k2 ∈ odKeys p.1.cache_data) := by
  have hwf := reachable_wf maxItems c hr
  obtain ⟨hnd_cd, _, _, _, hfr, _, _⟩ := id hwf
  constructor
  · intro key item c' out hput
    match key, item with
    | none, item =>
      rw [put_null_key] at hput
      cases hput
      exact Or.inr ⟨rfl, fun k2 h => h⟩
    | some k, none =>
      rw [put_null_item] at hput
      cases hput
      exact Or.inr ⟨rfl, fun k2 h => h⟩
    | some k, some v =>
      cases hkd : odLookup c.cache_data k with
      | some w =>
        obtain ⟨f, hf, hp⟩ := put_hit maxItems c k v w hwf hkd
        rw [hp] at hput
        cases hput
        refine Or.inr ⟨rfl, ?_⟩
        intro k2 hk2
        show k2 ∈ odKeys (odSet c.cache_data k v)
        rw [odKeys_odSet_of_isSome _ _ _ (by rw [hkd]; rfl)]
        exact hk2
      | none =>
        by_cases hfull : maxItems ≤ c.cache_data.length
        · by_cases hcd : c.cache_data = []
          · have hnone : put maxItems c (some k) (some v) = none := by
              simp [put, hkd, hfull,
                evict_none c (fr_nil_of_cd_nil maxItems c hwf hcd)]
            rw [hnone] at hput
            exact Option.noConfusion hput
          · obtain ⟨ek, mf, s, b, h1, h2, h3, h4, h5, hp⟩ :=
              put_new_full maxItems c k v hwf hkd hfull hcd
            rw [hp] at hput
            cases hput
            have hek_cd : (odLookup c.cache_data ek).isSome :=
              (hfr (ek, mf) (odLookup_mem _ _ _ h1)).1
            have hek_ne_k : ek ≠ k := by
              intro hh
              rw [hh, hkd] at hek_cd
              simp at hek_cd
            refine Or.inl ⟨ek, rfl,
              (mem_odKeys_iff_isSome _ _).mpr hek_cd, ?_⟩
            rw [mem_odKeys_iff_isSome]
            show ¬ (odLookup (odSet (odErase c.cache_data ek) k v) ek).isSome
              = true
            rw [odLookup_odSet_ne _ _ _ _ hek_ne_k,
              odLookup_odErase_self _ _ hnd_cd]
            simp
        · rw [put_new_notfull maxItems c k v hkd hfull] at hput
          cases hput
          refine Or.inr ⟨rfl, ?_⟩
          intro k2 hk2
          show k2 ∈ odKeys (odSet c.cache_data k v)
          rw [odSet_eq_append _ _ _ hkd]
          simp only [odKeys, List.map_append, List.map_cons, List.map_nil,
            List.mem_append]
          exact Or.inl hk2
  · intro key p hp
    cases hget : get c key with
    | none =>
      rw [runOp, hget] at hp
      exact Option.noConfusion hp
    | some q =>
      rw [runOp, hget] at hp
      simp only [Option.map_some'] at hp
      cases hp
      refine ⟨rfl, ?_⟩
      intro k2 hk2
      show k2 ∈ odKeys q.1.cache_data
      rw [get_preserves_cd maxItems c hwf key q hget]
      exact hk2

/-- C10: `get` of a present key leaves the value store identical, leaves
the frequency and the bucket entry (with its stamp) of every other key
unchanged, and only bumps the sequence counter (besides promoting the
queried key). -/
theorem c10_get_frame (maxItems : Nat) (c : LFUCache) (k v : Nat)
    (hr : Reachable maxItems c) (hv : odLookup c.cache_data k = some v) :
    ∃ c', get c (some k) = some (c', some v) ∧
      c'.cache_data = c.cache_data ∧
      c'.lru_counter = c.lru_counter + 1 ∧
      (∀ k2, k2 ≠ k → odLookup c'.frequency k2 = odLookup c.frequency k2) ∧
      (∀ k2, k2 ≠ k → ∀ f2,
        odLookup ((odLookup c'.lru f2).getD []) k2
          = odLookup ((odLookup c.lru f2).getD []) k2) := by
  have hwf := reachable_wf maxItems c hr
  obtain ⟨f, hf, hlbs, hbks, hget⟩ := get_hit maxItems c k v hwf hv
  obtain ⟨b, hlb⟩ := Option.isSome_iff_exists.mp hlbs
  rw [hlb] at hbks
  simp only [Option.getD_some] at hbks
  obtain ⟨hnd_cd, hnd_fr, hnd_lru, hcdfr, hfr, hbok, hlen⟩ := hwf
  have hwf' : WF maxItems c :=
    ⟨hnd_cd, hnd_fr, hnd_lru, hcdfr, hfr, hbok, hlen⟩
  obtain ⟨_, hbnd, _, _⟩ := hbok (f, b) (odLookup_mem _ _ _ hlb)
  obtain ⟨⟨nb, hnb, _, hnbne⟩, hlkf, hlother⟩ :=
    promoteLru_lookup maxItems c k f hwf' hf b hlb
  refine ⟨promote c k f, hget, rfl, rfl, ?_, ?_⟩
  · intro k2 hk2
    show odLookup (odSet c.frequency k (f + 1)) k2 = odLookup c.frequency k2
    exact odLookup_odSet_ne _ _ _ _ hk2
  · intro k2 hk2 f2
    show odLookup ((odLookup (promoteLru c k f) f2).getD []) k2
        = odLookup ((odLookup c.lru f2).getD []) k2
    by_cases hf2 : f2 = f + 1
    · rw [hf2, hnb]
      simp only [Option.getD_some]
      exact hnbne k2 hk2
    · by_cases hf3 : f2 = f
      · rw [hf3, hlkf, hlb]
        simp only [Option.getD_some]
        by_cases hemp : (odErase b k).isEmpty
        · rw [if_pos hemp]
          show odLookup ((none : Option (List (Nat × Nat))).getD []) k2
              = odLookup b k2
          cases hlk2 : odLookup b k2 with
          | none => rfl
          | some w =>
            have hmem2 : (k2, w) ∈ odErase b k :=
              (mem_odErase _ _ _ hbnd).mpr ⟨odLookup_mem _ _ _ hlk2, hk2⟩
            rw [List.isEmpty_iff.mp hemp] at hmem2
            simp at hmem2
        · rw [if_neg hemp]
          simp only [Option.getD_some]
          exact odLookup_odErase_ne _ _ _ hk2
      · rw [hlother f2 hf3 hf2]

/-! ### Concrete instantiations -/

theorem c1_eviction_min_freq_then_oldest_witness :
    ∃ ek fek sek b c',
      put 2 sampleState (some 2) (some 30) = some (c', [ek]) ∧
      (odLookup sampleState.cache_data ek).isSome ∧
      odLookup c'.cache_data ek = none ∧
      odLookup sampleState.frequency ek = some fek ∧
      (∀ k2 w2, odLookup sampleState.cache_data k2 = some w2 →
        ∃ f2, odLookup sampleState.frequency k2 = some f2 ∧ fek ≤ f2) ∧
      odLookup sampleState.lru fek = some b ∧
      odLookup b ek = some sek ∧
      (∀ x ∈ b, sek ≤ x.2) :=
  c1_eviction_min_freq_then_oldest 2 sampleState 2 30
    ⟨sampleOps, by decide⟩ (by decide) (by decide) (by decide)

theorem c2_capacity_invariant_witness :
    (odKeys sampleState2.cache_data).Nodup ∧
    sampleState2.cache_data.length ≤ 2 :=
  c2_capacity_invariant 2 (sampleOps ++ [Op.opPut (some 2) (some 30)])
    sampleState2 (by decide)

theorem c3_get_promotes_witness :
    (∀ k v, odLookup sampleState.cache_data k = some v →
      ∃ f c', odLookup sampleState.frequency k = some f ∧
        get sampleState (some k) = some (c', some v) ∧
        odLookup c'.frequency k = some (f + 1) ∧
        c'.lru_counter = sampleState.lru_counter + 1 ∧
        (∀ b', odLookup c'.lru f = some b' → odLookup b' k = none) ∧
        (∃ b', odLookup c'.lru (f + 1) = some b' ∧
          b'.getLast? = some (k, sampleState.lru_counter)) ∧
        (∀ b, odLookup sampleState.lru f = some b → odKeys b = [k] →
          odLookup c'.lru f = none)) ∧
    (∀ k, odLookup sampleState.cache_data k = none →
      get sampleState (some k) = some (sampleState, none)) ∧
    get sampleState none = some (sampleState, none) :=
  c3_get_promotes 2 sampleState ⟨sampleOps, by decide⟩

theorem c4_overwrite_promotes_witness :
    ∃ f c',
      odLookup sampleState.frequency 0 = some f ∧
      put 2 sampleState (some 0) (some 99) = some (c', []) ∧
      get { sampleState with
            cache_data := odSet sampleState.cache_data 0 99 } (some 0)
        = some (c', some 99) ∧
      odLookup c'.cache_data 0 = some 99 ∧
      odLookup c'.frequency 0 = some (f + 1) ∧
      c'.cache_data.length = sampleState.cache_data.length ∧
      odKeys c'.cache_data = odKeys sampleState.cache_data :=
  c4_overwrite_promotes 2 sampleState 0 99 10
    ⟨sampleOps, by decide⟩ (by decide)

theorem c5_structures_consistent_witness :
    (odKeys sampleState2.frequency).Nodup ∧
    (∀ k w, odLookup sampleState2.cache_data k = some w →
      ∃ f, odLookup sampleState2.frequency k = some f ∧
        ∃ b, odLookup sampleState2.lru f = some b ∧ (odLookup b k).isSome ∧
          ∀ f2 b2, odLookup sampleState2.lru f2 = some b2 →
            k ∈ odKeys b2 → f2 = f) ∧
    (∀ fb ∈ sampleState2.lru, fb.2 ≠ []) :=
  c5_structures_consistent 2 sampleState (Op.opPut (some 2) (some 30))
    (sampleState2, [1]) ⟨sampleOps, by decide⟩ (by decide)

theorem c7_frequency_monotone_witness :
    (∀ k f f', odLookup sampleState.frequency k = some f →
      odLookup sampleState2.frequency k = some f' →
      (odLookup sampleState.cache_data k).isSome →
      (odLookup sampleState2.cache_data k).isSome → f ≤ f') ∧
    (∀ k f', odLookup sampleState.cache_data k = none →
      odLookup sampleState2.frequency k = some f' → f' = 1) :=
  c7_frequency_monotone 2 sampleState (Op.opPut (some 2) (some 30))
    (sampleState2, [1]) ⟨sampleOps, by decide⟩ (by decide)

theorem c8_never_raises_witness :
    (∀ key item, (put 2 sampleState key item).isSome) ∧
    (∀ key, (get sampleState key).isSome) :=
  c8_never_raises 2 sampleState ⟨sampleOps, by decide⟩ (by decide)

theorem c9_notification_iff_eviction_witness :
    (∀ key item c' out, put 2 sampleState key item = some (c', out) →
      (∃ ek, out = [ek] ∧ ek ∈ odKeys sampleState.cache_data ∧
        ek ∉ odKeys c'.cache_data) ∨
      (out = [] ∧ ∀ k2 ∈ odKeys sampleState.cache_data,
        k2 ∈ odKeys c'.cache_data)) ∧
    (∀ key p, runOp 2 sampleState (Op.opGet key) = some p →
      p.2 = [] ∧ ∀ k2 ∈ odKeys sampleState.cache_data,
        k2 ∈ odKeys p.1.cache_data) :=
  c9_notification_iff_eviction 2 sampleState ⟨sampleOps, by decide⟩

theorem c10_get_frame_witness :
    ∃ c', get sampleState (some 0) = some (c', some 10) ∧
      c'.cache_data = sampleState.cache_data ∧
      c'.lru_counter = sampleState.lru_counter + 1 ∧
      (∀ k2, k2 ≠ 0 →
        odLookup c'.frequency k2 = odLookup sampleState.frequency k2) ∧
      (∀ k2, k2 ≠ 0 → ∀ f2,
        odLookup ((odLookup c'.lru f2).getD []) k2
          = odLookup ((odLookup sampleState.lru f2).getD []) k2) :=
  c10_get_frame 2 sampleState 0 10 ⟨sampleOps, by decide⟩ (by decide)

end LFU
